import Mathlib

/-!
Verification of the curve9767 scalar arithmetic reference implementation
(`src/scalar_ref.c`).

A scalar is represented as 17 limbs of 15 bits each, little-endian, every
limb stored in a 16-bit word whose top bit is zero.  We embed the limb
arrays as `List ℕ` and each C function as a Lean function on lists that
mirrors the C loops limb by limb.  Machine arithmetic is modelled on ℕ/ℤ:
every 32-bit intermediate in the C code stays strictly below 2^32 (the
code's own comments prove this for the Montgomery inner loop, and the other
loops only add at most three quantities below 2^16), except for the
deliberate wraparounds (borrow propagation, mask construction), which we
model explicitly with `Int.emod`/conditionals.
-/

namespace Curve9767

/-- The curve order `n` in base 2^15, little-endian (constant `order[]`). -/
def order : List ℕ :=
  [24177, 19022, 18073, 22927, 18879, 12156,  7504, 10559, 11571,
   26856, 15192, 22896, 14840, 31722,  2974,  9600,  3616]

/-- `sR2 = 2^510 mod n`, in base 2^15 (constant `sR2[]`). -/
def sR2 : List ℕ :=
  [14755,  1449,  7175,  1324, 11384, 15866, 31249, 13920, 17944,
    6728,  3858,  5900, 25302,   432,  5554, 29779,  1646]

/-- `sD = 2^503 mod n` (Montgomery representation of 2^248, constant `sD[]`). -/
def sD : List ℕ :=
  [  167,  1579, 26634, 10886, 24646, 12845, 32322,  7660,  8304,
   12054, 20731,  3487, 26407,  9107, 22337,  7191,  1284]

/-- `N0 = n mod 2^15`. -/
def N0 : ℕ := 24177

/-- `N0I = -1/n mod 2^15`. -/
def N0I : ℕ := 23919

/-- Value of a little-endian base-2^15 limb list. -/
def val15 : List ℕ → ℕ
  | [] => 0
  | x :: xs => x + 32768 * val15 xs

/-- The curve order as an integer. -/
def n : ℕ := val15 order

/-- Value of a little-endian byte string. -/
def bytesVal : List ℕ → ℕ
  | [] => 0
  | b :: bs => b + 256 * bytesVal bs

/-- A well-formed scalar representation: 17 limbs, each below 2^15. -/
def goodScalar (s : List ℕ) : Prop := s.length = 17 ∧ ∀ x ∈ s, x < 32768

instance : DecidablePred goodScalar := fun s => by
  unfold goodScalar; infer_instance

/-- The constant scalar 0 (`curve9767_scalar_zero`). -/
def curve9767_scalar_zero : List ℕ :=
  [0, 0, 0, 0, 0, 0, 0, 0, 0, 0, 0, 0, 0, 0, 0, 0, 0]

/-- The constant scalar 1 (`curve9767_scalar_one`). -/
def curve9767_scalar_one : List ℕ :=
  [1, 0, 0, 0, 0, 0, 0, 0, 0, 0, 0, 0, 0, 0, 0, 0, 0]

/-!  ## Carry / borrow chains

The limb loops of `scalar_add`, `scalar_sub` and `scalar_normalize` are
add-with-carry and subtract-with-borrow chains over pairs of limb lists.
`w = a[i] + b[i] + cc` never exceeds 2^32 in the C code, so the additive
chain is exact on ℕ; the subtractive chain wraps modulo 2^32 and extracts
the sign from bit 31, which for differences in `(-2^31, 2^31)` is exactly
the `Int` sign, so we model it on ℤ. -/

/-- Addition chain: `w = x + y + cc; limb = w & 0x7FFF; cc = w >> 15`. -/
def addChain : List ℕ → List ℕ → ℕ → List ℕ × ℕ
  | x :: xs, y :: ys, cc =>
    let w := x + y + cc
    let r := addChain xs ys (w / 32768)
    ((w % 32768) :: r.1, r.2)
  | _, _, cc => ([], cc)

/-- Subtraction chain: `w = x - y - cc` on uint32 (wrapping);
`limb = w & 0x7FFF; cc = w >> 31`.  For `x, y < 2^16` this equals the
signed difference reduced `emod 2^15`, with borrow given by the sign. -/
def subChain : List ℕ → List ℕ → ℕ → List ℕ × ℕ
  | x :: xs, y :: ys, cc =>
    let w : ℤ := (x : ℤ) - (y : ℤ) - (cc : ℤ)
    let r := subChain xs ys (if w < 0 then 1 else 0)
    ((w.emod 32768).toNat :: r.1, r.2)
  | _, _, cc => ([], cc)

/-- One conditional subtraction of `n`, gated on `d >= 2^252`
(the second half of `scalar_add`): `m = d[16] >> 12`, expanded to an
all-ones/all-zero mask, then a borrow chain subtracting `m & order[i]`. -/
def condsub2252 (d : List ℕ) : List ℕ :=
  let m : ℕ := if d.getD 16 0 / 4096 = 0 then 0 else 1
  (subChain d (order.map fun o => m * o) 0).1

/-- `scalar_add`: limb-wise add then two conditional subtractions of `n`.
The final carry of the raw addition is dropped, as in the C code. -/
def scalar_add (a b : List ℕ) : List ℕ :=
  condsub2252 (condsub2252 (addChain a b 0).1)

/-- One conditional addition of `n`, gated on the sign bit `d[16] >> 14`
(the second half of `scalar_sub`).  The final carry is dropped. -/
def condadd2254 (d : List ℕ) : List ℕ :=
  let m : ℕ := if d.getD 16 0 / 16384 = 0 then 0 else 1
  (addChain d (order.map fun o => m * o) 0).1

/-- `scalar_sub`: limb-wise subtract then two conditional additions of `n`. -/
def scalar_sub (a b : List ℕ) : List ℕ :=
  condadd2254 (condadd2254 (subChain a b 0).1)

/-- `scalar_normalize`: subtract `n`; if that borrowed, keep the input
(selected limb-wise by the mask `cc = -borrow`), else keep the difference.
Returns the result and the flag (1 when the input was already in
`[0, n-1]`, i.e. when the subtraction borrowed). -/
def scalar_normalize (a : List ℕ) : List ℕ × ℕ :=
  let r := subChain a order 0
  let mask : ℕ := if r.2 = 1 then 4294967295 else 0
  (List.zipWith (fun wa wd => wd ^^^ (mask &&& (wa ^^^ wd))) a r.1, r.2)

/-!  ## Montgomery multiplication (`scalar_mmul`) -/

/-- Inner loop of `scalar_mmul` (indices `j = 1..16`):
`h = d[j] + f*b[j] + g*order[j] + cc; d[j-1] = h & 0x7FFF; cc = h >> 15`. -/
def mulChain (f g : ℕ) : List ℕ → List ℕ → List ℕ → ℕ → List ℕ × ℕ
  | d :: ds, b :: bs, o :: os, cc =>
    let h := d + f * b + g * o + cc
    let r := mulChain f g ds bs os (h / 32768)
    ((h % 32768) :: r.1, r.2)
  | _, _, _, cc => ([], cc)

/-- One iteration of the outer loop of `scalar_mmul` for the limb `f = a[i]`. -/
def mmulStep (b d : List ℕ) (dh f : ℕ) : List ℕ × ℕ :=
  let t := d.headD 0 + f * b.headD 0
  let g := (t * N0I) % 32768
  let cc := (t + g * N0) / 32768
  let r := mulChain f g d.tail b.tail order.tail cc
  let dh2 := dh + r.2
  (r.1 ++ [dh2 % 32768], dh2 / 32768)

/-- Outer loop of `scalar_mmul` over the limbs of `a`. -/
def mmulGo (b : List ℕ) : List ℕ → List ℕ × ℕ → List ℕ × ℕ
  | [], s => s
  | f :: fs, s => mmulGo b fs (mmulStep b s.1 s.2 f)

/-- `scalar_mmul`: Montgomery multiplication `(a*b)/2^255 mod n`.
The top carry `dh` (provably zero for in-range inputs) is dropped by the
final `memcpy`, as in the C code. -/
def scalar_mmul (a b : List ℕ) : List ℕ :=
  (mmulGo b a (List.replicate 17 0, 0)).1

/-- `curve9767_scalar_mul`: two Montgomery multiplications, first by `sR2`. -/
def curve9767_scalar_mul (a b : List ℕ) : List ℕ :=
  scalar_mmul (scalar_mmul a sR2) b

/-- `curve9767_scalar_neg`: `0 - a` through `scalar_sub`. -/
def curve9767_scalar_neg (a : List ℕ) : List ℕ :=
  scalar_sub curve9767_scalar_zero a

/-!  ## Byte decoding / encoding -/

/-- The loop of `scalar_decode_trunc`.  State: byte index `u`, bit
accumulator `acc` holding `acc_len` bits.  Limbs are emitted sequentially;
at `u = 31` the low nibble of the byte joins the accumulator to form the
last limb (`c[16]`) and the remaining bytes are ignored. -/
def dtgo : List ℕ → ℕ → ℕ → ℕ → List ℕ
  | [], _, acc, acc_len => if 0 < acc_len then [acc] else []
  | b :: rest, u, acc, acc_len =>
    if u = 31 then [acc ||| ((b &&& 15) <<< 8)]
    else
      let acc2 := acc ||| (b <<< acc_len)
      let al2 := acc_len + 8
      if 15 ≤ al2 then (acc2 % 32768) :: dtgo rest (u + 1) (acc2 >>> 15) (al2 - 15)
      else dtgo rest (u + 1) acc2 al2

/-- `scalar_decode_trunc`: decode up to 252 bits, zero-padding to 17 limbs. -/
def scalar_decode_trunc (src : List ℕ) : List ℕ :=
  let l := dtgo src 0 0 0
  l ++ List.replicate (17 - l.length) 0

/-- One iteration of the `decode_reduce` loop, consuming the 31-byte chunk
at offset `31*k`: `s <- scalar_add (scalar_mmul s sD) (decode of chunk)`. -/
def reduceStep (src s : List ℕ) (k : ℕ) : List ℕ :=
  scalar_add (scalar_mmul s sD) (scalar_decode_trunc ((src.drop (31 * k)).take 31))

/-- The `while (u > 0)` loop of `decode_reduce`, counted in 31-byte chunks. -/
def drgo (src : List ℕ) : ℕ → List ℕ → List ℕ
  | 0, s => s
  | k + 1, s => drgo src k (reduceStep src s k)

/-- `curve9767_scalar_decode_reduce`: fold an arbitrary byte string into a
scalar, 31-byte chunks from most to least significant.  The offset of the
leading chunk is the largest multiple of 31 below the length, exactly the
final value of `u` in `for (u = 0; u + 31 < len; u += 31);`. -/
def curve9767_scalar_decode_reduce (src : List ℕ) : List ℕ :=
  if src.length ≤ 31 then scalar_decode_trunc src
  else
    let u := 31 * ((src.length - 1) / 31)
    drgo src (u / 31) (scalar_decode_trunc (src.drop u))

/-- `curve9767_scalar_decode_strict`: decode the low 252 bits, then (for
inputs of 32 bytes or more) check that the dropped bits (high nibble of
byte 31, all later bytes) were zero and normalize, combining the two
checks with a bitwise AND of 0/1 flags. -/
def curve9767_scalar_decode_strict (src : List ℕ) : List ℕ × ℕ :=
  let c := scalar_decode_trunc src
  if 32 ≤ src.length then
    let r0 := src.getD 31 0 >>> 4
    let r := (src.drop 32).foldl (fun x b => x ||| b) r0
    let rb : ℕ := if r = 0 then 1 else 0
    let nr := scalar_normalize c
    (nr.1, rb &&& nr.2)
  else (c, 1)

/-- The `while (acc_len >= 8)` byte-emission loop of `scalar_encode`. -/
def emitBytes (acc acc_len : ℕ) : List ℕ × ℕ × ℕ :=
  if 8 ≤ acc_len then
    let r := emitBytes (acc >>> 8) (acc_len - 8)
    ((acc % 256) :: r.1, r.2)
  else ([], acc, acc_len)
termination_by acc_len

/-- One iteration of the encoding loop for limb `w`. -/
def encodeStep (st : List ℕ × ℕ × ℕ) (w : ℕ) : List ℕ × ℕ × ℕ :=
  let r := emitBytes (st.2.1 ||| (w <<< st.2.2)) (st.2.2 + 15)
  (st.1 ++ r.1, r.2)

/-- `curve9767_scalar_encode`: normalize, then pack the 17 limbs into 32
little-endian bytes (the last byte is the leftover 7-bit accumulator,
written to `buf[31]`). -/
def curve9767_scalar_encode (s : List ℕ) : List ℕ :=
  let t := (scalar_normalize s).1
  let st := t.foldl encodeStep ([], 0, 0)
  st.1 ++ [st.2.1]

/-- `curve9767_scalar_condcopy` on the 9-word 32-bit view of a scalar
(each 32-bit word packs two consecutive 16-bit limb slots; the 18th slot
is padding): `ctl` is negated on uint32 into a mask, then a word-wise
masked select is applied. -/
def curve9767_scalar_condcopy (d s : List ℕ) (ctl : ℕ) : List ℕ :=
  let m := (4294967296 - ctl % 4294967296) % 4294967296
  List.zipWith (fun dw sw => dw ^^^ (m &&& (dw ^^^ sw))) d s

/-!  ## Basic value lemmas -/

lemma n_val : n = 6389436622109970582043832278503799542449455630003248488928817956373993578097 := by
  decide

lemma val15_append (l1 l2 : List ℕ) :
    val15 (l1 ++ l2) = val15 l1 + 32768 ^ l1.length * val15 l2 := by
  induction l1 with
  | nil => simp [val15]
  | cons x xs ih =>
    show val15 (x :: (xs ++ l2)) = _
    simp only [val15, ih, List.length_cons, pow_succ]
    ring

lemma val15_replicate_zero (k : ℕ) : val15 (List.replicate k 0) = 0 := by
  induction k with
  | zero => rfl
  | succ k ih => simpa [List.replicate_succ, val15] using ih

lemma val15_lt (l : List ℕ) (h : ∀ x ∈ l, x < 32768) : val15 l < 32768 ^ l.length := by
  induction l with
  | nil => simp [val15]
  | cons x xs ih =>
    have hx := h x (by simp)
    have hxs := ih (fun y hy => h y (by simp [hy]))
    simp only [val15, List.length_cons, pow_succ]
    generalize 32768 ^ xs.length = P at hxs ⊢
    omega

lemma bytesVal_append (l1 l2 : List ℕ) :
    bytesVal (l1 ++ l2) = bytesVal l1 + 256 ^ l1.length * bytesVal l2 := by
  induction l1 with
  | nil => simp [bytesVal]
  | cons x xs ih =>
    show bytesVal (x :: (xs ++ l2)) = _
    simp only [bytesVal, ih, List.length_cons, pow_succ]
    ring

lemma bytesVal_lt (l : List ℕ) (h : ∀ x ∈ l, x < 256) : bytesVal l < 256 ^ l.length := by
  induction l with
  | nil => simp [bytesVal]
  | cons x xs ih =>
    have hx := h x (by simp)
    have hxs := ih (fun y hy => h y (by simp [hy]))
    simp only [bytesVal, List.length_cons, pow_succ]
    generalize 256 ^ xs.length = P at hxs ⊢
    omega

/-- The value of a good scalar is read off its top limb: dividing by
2^240 recovers `d[16]`. -/
lemma val15_div_pow (d : List ℕ) (k : ℕ) (hl : d.length = k + 1)
    (hx : ∀ x ∈ d, x < 32768) : val15 d / 32768 ^ k = d.getD k 0 := by
  induction k generalizing d with
  | zero =>
    match d, hl with
    | [x], _ => simp [val15]
  | succ k ih =>
    match d, hl with
    | x :: xs, hl =>
      have hx0 : x < 32768 := hx x (by simp)
      have hxs : ∀ y ∈ xs, y < 32768 := fun y hy => hx y (by simp [hy])
      have hlen : xs.length = k + 1 := by simpa using hl
      have := ih xs hlen hxs
      simp only [val15, List.getD_cons_succ, pow_succ]
      rw [Nat.mul_comm (32768 ^ k) 32768, ← Nat.div_div_eq_div_mul,
        Nat.add_mul_div_left x _ (by norm_num), Nat.div_eq_of_lt hx0, Nat.zero_add, this]

/-!  ## Carry-chain lemmas -/

lemma addChain_cons (x y cc : ℕ) (xs ys : List ℕ) :
    addChain (x :: xs) (y :: ys) cc =
      (((x + y + cc) % 32768) :: (addChain xs ys ((x + y + cc) / 32768)).1,
       (addChain xs ys ((x + y + cc) / 32768)).2) := rfl

lemma addChain_spec : ∀ (a b : List ℕ) (cc : ℕ), a.length = b.length →
    (addChain a b cc).1.length = a.length ∧
    (∀ x ∈ (addChain a b cc).1, x < 32768) ∧
    val15 (addChain a b cc).1 + 32768 ^ a.length * (addChain a b cc).2
      = val15 a + val15 b + cc := by
  intro a
  induction a with
  | nil =>
    intro b cc h
    have hb : b = [] := List.eq_nil_of_length_eq_zero h.symm
    subst hb
    simp [addChain, val15]
  | cons x xs ih =>
    intro b cc h
    match b with
    | y :: ys =>
      have hlen : xs.length = ys.length := by simpa using h
      obtain ⟨ihl, ihb, ihv⟩ := ih ys ((x + y + cc) / 32768) hlen
      rw [addChain_cons]
      refine ⟨by simpa using ihl, ?_, ?_⟩
      · intro z hz
        rcases List.mem_cons.mp hz with hz | hz
        · omega
        · exact ihb z hz
      · simp only [val15, List.length_cons]
        have hdm : 32768 * ((x + y + cc) / 32768) + (x + y + cc) % 32768 = x + y + cc := by
          omega
        zify at ihv hdm ⊢
        rw [pow_succ]
        linear_combination (32768 : ℤ) * ihv + hdm

lemma subChain_cons (x y cc : ℕ) (xs ys : List ℕ) :
    subChain (x :: xs) (y :: ys) cc =
      (((((x : ℤ) - y - cc).emod 32768).toNat ::
          (subChain xs ys (if ((x : ℤ) - y - cc) < 0 then 1 else 0)).1,
        (subChain xs ys (if ((x : ℤ) - y - cc) < 0 then 1 else 0)).2)) := rfl

lemma subChain_spec : ∀ (a b : List ℕ) (cc : ℕ), a.length = b.length →
    (∀ x ∈ a, x < 32768) → (∀ x ∈ b, x < 32768) → cc ≤ 1 →
    (subChain a b cc).1.length = a.length ∧
    (∀ x ∈ (subChain a b cc).1, x < 32768) ∧
    (subChain a b cc).2 ≤ 1 ∧
    (val15 (subChain a b cc).1 : ℤ)
      = val15 a - val15 b - cc + 32768 ^ a.length * (subChain a b cc).2 := by
  intro a
  induction a with
  | nil =>
    intro b cc h _ _ hcc
    have hb : b = [] := List.eq_nil_of_length_eq_zero h.symm
    subst hb
    simp [subChain, val15, hcc]
  | cons x xs ih =>
    intro b cc h hxa hxb hcc
    match b with
    | y :: ys =>
      have hlen : xs.length = ys.length := by simpa using h
      have hx0 : x < 32768 := hxa x (by simp)
      have hy0 : y < 32768 := hxb y (by simp)
      rw [subChain_cons]
      obtain ⟨ihl, ihb, ihc, ihv⟩ := ih ys (if ((x : ℤ) - y - cc) < 0 then 1 else 0) hlen
        (fun z hz => hxa z (by simp [hz])) (fun z hz => hxb z (by simp [hz]))
        (by split <;> omega)
      have hwlb : (-32768 : ℤ) ≤ (x : ℤ) - y - cc := by omega
      have hwub : ((x : ℤ) - y - cc) < 32768 := by omega
      have hlimb : (((((x : ℤ) - y - cc)).emod 32768).toNat : ℤ)
          = ((x : ℤ) - y - cc) + 32768 * (if ((x : ℤ) - y - cc) < 0 then 1 else 0 : ℕ) := by
        rcases lt_or_le ((x : ℤ) - y - cc) 0 with hneg | hpos
        · have h1 : ((x : ℤ) - y - cc).emod 32768 = ((x : ℤ) - y - cc) + 32768 := by
            have h2 : (((x : ℤ) - y - cc) + 32768).emod 32768 = ((x : ℤ) - y - cc) + 32768 :=
              Int.emod_eq_of_lt (by omega) (by omega)
            have h3 : (((x : ℤ) - y - cc) + 32768 * 1).emod 32768
                = ((x : ℤ) - y - cc).emod 32768 :=
              Int.add_mul_emod_self_left ((x : ℤ) - y - cc) 32768 1
            rw [mul_one] at h3
            exact (h3.symm.trans h2)
          rw [if_pos hneg, Int.toNat_of_nonneg (by omega), h1]
          push_cast; ring
        · have h1 : ((x : ℤ) - y - cc).emod 32768 = (x : ℤ) - y - cc :=
            Int.emod_eq_of_lt hpos hwub
          rw [if_neg (not_lt.mpr hpos), Int.toNat_of_nonneg (by omega), h1]
          push_cast; ring
      have hlimblt : ((((x : ℤ) - y - cc)).emod 32768).toNat < 32768 := by
        have h1 : 0 ≤ ((x : ℤ) - y - cc).emod 32768 := Int.emod_nonneg _ (by norm_num)
        have h2 : ((x : ℤ) - y - cc).emod 32768 < 32768 := Int.emod_lt_of_pos _ (by norm_num)
        omega
      refine ⟨by simpa using ihl, ?_, ihc, ?_⟩
      · intro z hz
        rcases List.mem_cons.mp hz with hz | hz
        · exact hz ▸ hlimblt
        · exact ihb z hz
      · simp only [val15, List.length_cons]
        push_cast
        rw [pow_succ]
        linear_combination (32768 : ℤ) * ihv + hlimb

lemma mulChain_spec (f g : ℕ) : ∀ (d b o : List ℕ) (cc : ℕ),
    d.length = b.length → d.length = o.length →
    (mulChain f g d b o cc).1.length = d.length ∧
    (∀ x ∈ (mulChain f g d b o cc).1, x < 32768) ∧
    val15 (mulChain f g d b o cc).1 + 32768 ^ d.length * (mulChain f g d b o cc).2
      = val15 d + f * val15 b + g * val15 o + cc := by
  intro d
  induction d with
  | nil =>
    intro b o cc h1 h2
    have hb : b = [] := List.eq_nil_of_length_eq_zero h1.symm
    have ho : o = [] := List.eq_nil_of_length_eq_zero h2.symm
    subst hb; subst ho
    simp [mulChain, val15]
  | cons x xs ih =>
    intro b o cc h1 h2
    match b, o with
    | y :: ys, z :: zs =>
      have hl1 : xs.length = ys.length := by simpa using h1
      have hl2 : xs.length = zs.length := by simpa using h2
      obtain ⟨ihl, ihb, ihv⟩ := ih ys zs ((x + f * y + g * z + cc) / 32768) hl1 hl2
      have hstep : mulChain f g (x :: xs) (y :: ys) (z :: zs) cc =
          (((x + f * y + g * z + cc) % 32768) ::
            (mulChain f g xs ys zs ((x + f * y + g * z + cc) / 32768)).1,
           (mulChain f g xs ys zs ((x + f * y + g * z + cc) / 32768)).2) := rfl
      rw [hstep]
      refine ⟨by simpa using ihl, ?_, ?_⟩
      · intro w hw
        rcases List.mem_cons.mp hw with hw | hw
        · omega
        · exact ihb w hw
      · simp only [val15, List.length_cons]
        have hdm : 32768 * ((x + f * y + g * z + cc) / 32768)
            + (x + f * y + g * z + cc) % 32768 = x + f * y + g * z + cc := by omega
        zify at ihv hdm ⊢
        rw [pow_succ]
        linear_combination (32768 : ℤ) * ihv + hdm

/-!  ## Numeric facts about the constants -/

lemma order_length : order.length = 17 := by decide

lemma order_limbs : ∀ x ∈ order, x < 32768 := by decide

lemma val15_order : val15 order = n := rfl

lemma n_lt_pow252 : n < 2 ^ 252 := by rw [n_val]; omega

lemma pow251_lt_n : 2 ^ 251 < n := by rw [n_val]; omega

/-- The value of a good scalar fits in 255 bits. -/
lemma val15_lt17 (d : List ℕ) (h17 : d.length = 17) (hb : ∀ x ∈ d, x < 32768) :
    val15 d < 2 ^ 255 := by
  have h := val15_lt d hb
  rw [h17] at h
  calc val15 d < 32768 ^ 17 := h
    _ = 2 ^ 255 := by norm_num

/-- `d[16]` of a good scalar is `val15 d / 2^240`. -/
lemma getD16_spec (d : List ℕ) (h17 : d.length = 17) (hb : ∀ x ∈ d, x < 32768) :
    d.getD 16 0 = val15 d / 2 ^ 240 := by
  have h := val15_div_pow d 16 (by omega) hb
  rw [← h]
  norm_num

/-!  ## Conditional subtraction / addition of `n` -/

lemma condsub2252_spec (d : List ℕ) (h17 : d.length = 17) (hb : ∀ x ∈ d, x < 32768) :
    (condsub2252 d).length = 17 ∧ (∀ x ∈ condsub2252 d, x < 32768) ∧
    val15 (condsub2252 d) = if 2 ^ 252 ≤ val15 d then val15 d - n else val15 d := by
  have hv : val15 d < 2 ^ 255 := val15_lt17 d h17 hb
  have hgd : d.getD 16 0 = val15 d / 2 ^ 240 := getD16_spec d h17 hb
  unfold condsub2252
  rcases Nat.lt_or_ge (val15 d) (2 ^ 252) with hlt | hge
  · have hm : (if d.getD 16 0 / 4096 = 0 then 0 else 1) = 0 := by
      rw [hgd]; exact if_pos (by omega)
    have hmap : (order.map fun o => 0 * o) = List.replicate 17 0 := by decide
    simp only [hm, hmap]
    obtain ⟨hl, hlim, hbor, hval⟩ := subChain_spec d (List.replicate 17 0) 0
      (by rw [h17]; decide) hb (by decide) (by omega)
    have hout : val15 (subChain d (List.replicate 17 0) 0).1 < 2 ^ 255 :=
      val15_lt17 _ (hl.trans h17) hlim
    rw [val15_replicate_zero, h17] at hval
    norm_num at hval
    refine ⟨hl.trans h17, hlim, ?_⟩
    rw [if_neg (by omega)]
    omega
  · have hm : (if d.getD 16 0 / 4096 = 0 then 0 else 1) = 1 := by
      rw [hgd]; exact if_neg (by omega)
    have hmap : (order.map fun o => 1 * o) = order := by decide
    simp only [hm, hmap]
    obtain ⟨hl, hlim, hbor, hval⟩ := subChain_spec d order 0
      (by rw [h17]; decide) hb order_limbs (by omega)
    have hout : val15 (subChain d order 0).1 < 2 ^ 255 :=
      val15_lt17 _ (hl.trans h17) hlim
    rw [val15_order, h17] at hval
    norm_num at hval
    have hn : n < 2 ^ 252 := n_lt_pow252
    refine ⟨hl.trans h17, hlim, ?_⟩
    rw [if_pos hge]
    omega

lemma condadd2254_spec (d : List ℕ) (h17 : d.length = 17) (hb : ∀ x ∈ d, x < 32768) :
    (condadd2254 d).length = 17 ∧ (∀ x ∈ condadd2254 d, x < 32768) ∧
    val15 (condadd2254 d)
      = (val15 d + (if 2 ^ 254 ≤ val15 d then n else 0)) % 2 ^ 255 := by
  have hv : val15 d < 2 ^ 255 := val15_lt17 d h17 hb
  have hgd : d.getD 16 0 = val15 d / 2 ^ 240 := getD16_spec d h17 hb
  unfold condadd2254
  rcases Nat.lt_or_ge (val15 d) (2 ^ 254) with hlt | hge
  · have hm : (if d.getD 16 0 / 16384 = 0 then 0 else 1) = 0 := by
      rw [hgd]; exact if_pos (by omega)
    have hmap : (order.map fun o => 0 * o) = List.replicate 17 0 := by decide
    simp only [hm, hmap]
    obtain ⟨hl, hlim, hval⟩ := addChain_spec d (List.replicate 17 0) 0 (by rw [h17]; decide)
    have hout : val15 (addChain d (List.replicate 17 0) 0).1 < 2 ^ 255 :=
      val15_lt17 _ (hl.trans h17) hlim
    rw [val15_replicate_zero, h17] at hval
    norm_num at hval
    refine ⟨hl.trans h17, hlim, ?_⟩
    rw [if_neg (by omega)]
    omega
  · have hm : (if d.getD 16 0 / 16384 = 0 then 0 else 1) = 1 := by
      rw [hgd]; exact if_neg (by omega)
    have hmap : (order.map fun o => 1 * o) = order := by decide
    simp only [hm, hmap]
    obtain ⟨hl, hlim, hval⟩ := addChain_spec d order 0 (by rw [h17]; decide)
    have hout : val15 (addChain d order 0).1 < 2 ^ 255 :=
      val15_lt17 _ (hl.trans h17) hlim
    rw [val15_order, h17] at hval
    norm_num at hval
    have hn : n < 2 ^ 252 := n_lt_pow252
    refine ⟨hl.trans h17, hlim, ?_⟩
    rw [if_pos hge]
    omega

/-!  ## Addition, subtraction, normalization -/
/-- `scalar_add` characterization: for sums below `2^252 + 2n` (which
covers operands below `1.56 n` each) the result is below `2^252` and
congruent to the sum modulo `n`. -/
lemma scalar_add_spec (a b : List ℕ) (ha : goodScalar a) (hb : goodScalar b)
    (hs : val15 a + val15 b < 2 ^ 252 + 2 * n) :
    goodScalar (scalar_add a b) ∧ val15 (scalar_add a b) < 2 ^ 252 ∧
    val15 (scalar_add a b) ≡ val15 a + val15 b [MOD n] := by
  obtain ⟨ha17, hal⟩ := ha
  obtain ⟨hb17, hbl⟩ := hb
  have hn1 : n < 2 ^ 252 := n_lt_pow252
  have hn2 : 2 ^ 251 < n := pow251_lt_n
  obtain ⟨hcl, hclim, hcval⟩ := addChain_spec a b 0 (ha17.trans hb17.symm)
  rw [ha17] at hcl hcval
  norm_num at hcval
  have hd0lt : val15 (addChain a b 0).1 < 2 ^ 255 := val15_lt17 _ hcl hclim
  have hd0 : val15 (addChain a b 0).1 = val15 a + val15 b := by omega
  obtain ⟨h1l, h1lim, h1val⟩ := condsub2252_spec (addChain a b 0).1 hcl hclim
  obtain ⟨h2l, h2lim, h2val⟩ := condsub2252_spec _ h1l h1lim
  have hss : scalar_add a b = condsub2252 (condsub2252 (addChain a b 0).1) := rfl
  rw [hss]
  have key : ∃ k, k ≤ 2 ∧
      val15 (condsub2252 (condsub2252 (addChain a b 0).1)) + k * n = val15 a + val15 b ∧
      val15 (condsub2252 (condsub2252 (addChain a b 0).1)) < 2 ^ 252 := by
    rcases Nat.lt_or_ge (val15 (addChain a b 0).1) (2 ^ 252) with hc1 | hc1
    · rw [if_neg (not_le.mpr hc1)] at h1val
      rcases Nat.lt_or_ge (val15 (condsub2252 (addChain a b 0).1)) (2 ^ 252) with hc2 | hc2
      · rw [if_neg (not_le.mpr hc2)] at h2val
        exact ⟨0, by omega, by omega, by omega⟩
      · rw [if_pos hc2] at h2val
        exact ⟨1, by omega, by omega, by omega⟩
    · rw [if_pos hc1] at h1val
      rcases Nat.lt_or_ge (val15 (condsub2252 (addChain a b 0).1)) (2 ^ 252) with hc2 | hc2
      · rw [if_neg (not_le.mpr hc2)] at h2val
        exact ⟨1, by omega, by omega, by omega⟩
      · rw [if_pos hc2] at h2val
        exact ⟨2, by omega, by omega, by omega⟩
  obtain ⟨k, hk2, hkeq, hklt⟩ := key
  refine ⟨⟨h2l, h2lim⟩, hklt, ?_⟩
  show val15 (condsub2252 (condsub2252 (addChain a b 0).1)) % n
      = (val15 a + val15 b) % n
  rw [← hkeq, Nat.add_mul_mod_self_right]

/-- `scalar_sub` characterization: for operands below `2n` the result is
congruent to `a - b` modulo `n` and bounded by `max a (n-1)`. -/
lemma scalar_sub_spec (a b : List ℕ) (ha : goodScalar a) (hb : goodScalar b)
    (hA : val15 a < 2 * n) (hB : val15 b < 2 * n) :
    goodScalar (scalar_sub a b) ∧
    ((val15 (scalar_sub a b) : ℤ) ≡ (val15 a : ℤ) - val15 b [ZMOD (n : ℤ)]) ∧
    val15 (scalar_sub a b) ≤ max (val15 a) (n - 1) := by
  obtain ⟨ha17, hal⟩ := ha
  obtain ⟨hb17, hbl⟩ := hb
  have hn1 : n < 2 ^ 252 := n_lt_pow252
  have hn2 : 2 ^ 251 < n := pow251_lt_n
  obtain ⟨hcl, hclim, hbor, hcval⟩ := subChain_spec a b 0 (ha17.trans hb17.symm)
    hal hbl (by omega)
  rw [ha17] at hcl hcval
  norm_num at hcval
  have hd0lt : val15 (subChain a b 0).1 < 2 ^ 255 := val15_lt17 _ hcl hclim
  obtain ⟨h1l, h1lim, h1val⟩ := condadd2254_spec (subChain a b 0).1 hcl hclim
  have hd1lt : val15 (condadd2254 (subChain a b 0).1) < 2 ^ 255 := val15_lt17 _ h1l h1lim
  obtain ⟨h2l, h2lim, h2val⟩ := condadd2254_spec _ h1l h1lim
  have hss : scalar_sub a b = condadd2254 (condadd2254 (subChain a b 0).1) := rfl
  rw [hss]
  have key : ((val15 (condadd2254 (condadd2254 (subChain a b 0).1)) : ℤ)
        = val15 a - val15 b ∨
      (val15 (condadd2254 (condadd2254 (subChain a b 0).1)) : ℤ)
        = val15 a - val15 b + n ∨
      (val15 (condadd2254 (condadd2254 (subChain a b 0).1)) : ℤ)
        = val15 a - val15 b + 2 * n) ∧
      val15 (condadd2254 (condadd2254 (subChain a b 0).1)) ≤ max (val15 a) (n - 1) := by
    rcases Nat.lt_or_ge (val15 (subChain a b 0).1) (2 ^ 254) with hc1 | hc1
    · rw [if_neg (not_le.mpr hc1), Nat.add_zero, Nat.mod_eq_of_lt hd0lt] at h1val
      rcases Nat.lt_or_ge (val15 (condadd2254 (subChain a b 0).1)) (2 ^ 254) with hc2 | hc2
      · rw [if_neg (not_le.mpr hc2), Nat.add_zero, Nat.mod_eq_of_lt hd1lt] at h2val
        omega
      · rw [if_pos hc2] at h2val
        omega
    · rw [if_pos hc1] at h1val
      rcases Nat.lt_or_ge (val15 (condadd2254 (subChain a b 0).1)) (2 ^ 254) with hc2 | hc2
      · rw [if_neg (not_le.mpr hc2), Nat.add_zero, Nat.mod_eq_of_lt hd1lt] at h2val
        omega
      · rw [if_pos hc2] at h2val
        omega
  obtain ⟨hdisj, hbound⟩ := key
  refine ⟨⟨h2l, h2lim⟩, ?_, hbound⟩
  rcases hdisj with h | h | h
  · rw [h]
  · exact Int.modEq_iff_dvd.mpr ⟨-1, by omega⟩
  · exact Int.modEq_iff_dvd.mpr ⟨-2, by omega⟩

/-- `zipWith` projecting the second list is the identity on it. -/
lemma zipWith_snd (a : List ℕ) : ∀ d : List ℕ, d.length = a.length →
    List.zipWith (fun _ w => w) a d = d := by
  induction a with
  | nil => intro d hd; simp [List.eq_nil_of_length_eq_zero hd]
  | cons x xs ih =>
    intro d hd
    match d with
    | y :: ys => simp only [List.zipWith_cons_cons]; rw [ih ys (by simpa using hd)]

/-- Limb-wise masked select with an all-ones 32-bit mask yields the first
operand. -/
lemma zip_select_one (a : List ℕ) : ∀ d : List ℕ, d.length = a.length →
    (∀ x ∈ a, x < 4294967296) → (∀ x ∈ d, x < 4294967296) →
    List.zipWith (fun wa wd => wd ^^^ (4294967295 &&& (wa ^^^ wd))) a d = a := by
  induction a with
  | nil => intro d hd _ _; simp
  | cons x xs ih =>
    intro d hd hA hD
    match d with
    | y :: ys =>
      have hx : x < 4294967296 := hA x (by simp)
      have hy : y < 4294967296 := hD y (by simp)
      have hxor : (x ^^^ y) < 2 ^ 32 :=
        Nat.xor_lt_two_pow (by norm_num at hx ⊢; omega) (by norm_num at hy ⊢; omega)
      have hmask : 4294967295 &&& (x ^^^ y) = x ^^^ y := by
        have h1 : (4294967295 : ℕ) = 2 ^ 32 - 1 := by norm_num
        rw [Nat.land_comm, h1, Nat.and_pow_two_sub_one_eq_mod, Nat.mod_eq_of_lt hxor]
      simp only [List.zipWith_cons_cons]
      rw [hmask, Nat.xor_comm x y, ← Nat.xor_assoc, Nat.xor_self, Nat.zero_xor]
      rw [ih ys (by simpa using hd) (fun z hz => hA z (by simp [hz]))
        (fun z hz => hD z (by simp [hz]))]

/-- Limb-wise masked select with a zero mask yields the second operand. -/
lemma zip_select_zero (a d : List ℕ) (hlen : d.length = a.length) :
    List.zipWith (fun wa wd => wd ^^^ ((0 : ℕ) &&& (wa ^^^ wd))) a d = d := by
  have h : (fun (wa wd : ℕ) => wd ^^^ ((0 : ℕ) &&& (wa ^^^ wd)))
      = fun _ wd => wd := by
    funext wa wd
    simp
  rw [h]
  exact zipWith_snd a d hlen

/-- `scalar_normalize` characterization for inputs below `2n`: canonical
output, exact flag, and literal identity on already-canonical inputs. -/
lemma scalar_normalize_spec (a : List ℕ) (ha : goodScalar a) (hA : val15 a < 2 * n) :
    goodScalar (scalar_normalize a).1 ∧
    val15 (scalar_normalize a).1 = val15 a % n ∧
    ((scalar_normalize a).2 = if val15 a < n then 1 else 0) ∧
    (val15 a < n → (scalar_normalize a).1 = a) := by
  obtain ⟨ha17, hal⟩ := ha
  have hn1 : n < 2 ^ 252 := n_lt_pow252
  have hn2 : 2 ^ 251 < n := pow251_lt_n
  obtain ⟨hcl, hclim, hbor, hcval⟩ := subChain_spec a order 0
    (by rw [ha17]; decide) hal order_limbs (by omega)
  rw [ha17] at hcl hcval
  rw [val15_order] at hcval
  norm_num at hcval
  have hd0lt : val15 (subChain a order 0).1 < 2 ^ 255 := val15_lt17 _ hcl hclim
  have hsn : scalar_normalize a =
      (List.zipWith
        (fun wa wd => wd ^^^
          ((if (subChain a order 0).2 = 1 then 4294967295 else 0) &&& (wa ^^^ wd)))
        a (subChain a order 0).1,
       (subChain a order 0).2) := rfl
  simp only [hsn]
  rcases Nat.lt_or_ge (val15 a) n with hlt | hge
  · have hbit : (subChain a order 0).2 = 1 := by omega
    have hmask1 : (if (subChain a order 0).2 = 1 then (4294967295 : ℕ) else 0)
        = 4294967295 := if_pos hbit
    rw [hmask1]
    have hsel : List.zipWith (fun wa wd => wd ^^^ (4294967295 &&& (wa ^^^ wd)))
        a (subChain a order 0).1 = a :=
      zip_select_one a _ (hcl.trans ha17.symm)
        (fun z hz => lt_trans (hal z hz) (by norm_num))
        (fun z hz => lt_trans (hclim z hz) (by norm_num))
    rw [hsel]
    refine ⟨⟨ha17, hal⟩, (Nat.mod_eq_of_lt hlt).symm, ?_, fun _ => rfl⟩
    rw [hbit, if_pos hlt]
  · have hbit : (subChain a order 0).2 = 0 := by omega
    have hmask0 : (if (subChain a order 0).2 = 1 then (4294967295 : ℕ) else 0)
        = 0 := if_neg (by omega)
    rw [hmask0]
    have hsel : List.zipWith (fun wa wd => wd ^^^ ((0 : ℕ) &&& (wa ^^^ wd)))
        a (subChain a order 0).1 = (subChain a order 0).1 :=
      zip_select_zero a _ (hcl.trans ha17.symm)
    rw [hsel]
    have hval : val15 (subChain a order 0).1 = val15 a - n := by omega
    have hmod : val15 a % n = val15 a - n := by
      rw [Nat.mod_eq_sub_mod hge, Nat.mod_eq_of_lt (by omega)]
    refine ⟨⟨hcl, hclim⟩, by omega, ?_, fun h => absurd h (by omega)⟩
    rw [hbit, if_neg (not_lt.mpr hge)]

/-!  ## Montgomery multiplication: correctness -/

lemma N0_val : N0 = 24177 := rfl

lemma N0I_val : N0I = 23919 := rfl

lemma order_tail_length : order.tail.length = 16 := by decide

lemma order_tail_limbs : ∀ x ∈ order.tail, x < 32768 := by decide

lemma n_tail : n = 24177 + 32768 * val15 order.tail := by decide

/-- One outer Montgomery iteration: multiplies the running value by the
inverse of 2^15 after injecting `f * b`, compensating with `g * n`. -/
lemma mmulStep_spec (b d : List ℕ) (dh f : ℕ) (hd : d.length = 17)
    (hb : b.length = 17) :
    (mmulStep b d dh f).1.length = 17 ∧
    (∀ x ∈ (mmulStep b d dh f).1, x < 32768) ∧
    ∃ g, g < 32768 ∧
      32768 * (val15 (mmulStep b d dh f).1 + 2 ^ 255 * (mmulStep b d dh f).2)
        = val15 d + 2 ^ 255 * dh + f * val15 b + g * n := by
  match d, b, hd, hb with
  | d0 :: dtl, b0 :: btl, hd, hb =>
    have hdl : dtl.length = 16 := by simpa using hd
    have hbl : btl.length = 16 := by simpa using hb
    have hstep : mmulStep (b0 :: btl) (d0 :: dtl) dh f =
        ((mulChain f ((d0 + f * b0) * N0I % 32768) dtl btl order.tail
            ((d0 + f * b0 + (d0 + f * b0) * N0I % 32768 * N0) / 32768)).1 ++
          [(dh + (mulChain f ((d0 + f * b0) * N0I % 32768) dtl btl order.tail
            ((d0 + f * b0 + (d0 + f * b0) * N0I % 32768 * N0) / 32768)).2) % 32768],
         (dh + (mulChain f ((d0 + f * b0) * N0I % 32768) dtl btl order.tail
            ((d0 + f * b0 + (d0 + f * b0) * N0I % 32768 * N0) / 32768)).2) / 32768) := rfl
    set t := d0 + f * b0 with ht
    set g := t * N0I % 32768 with hg
    set cc := (t + g * N0) / 32768 with hcc
    have hglt : g < 32768 := Nat.mod_lt _ (by norm_num)
    have hdiv : (t + g * N0) % 32768 = 0 := by
      rw [hg, N0I_val, N0_val]
      omega
    have h32 : 32768 * cc = t + g * N0 := by
      rw [hcc]
      omega
    obtain ⟨hml, hmlim, hmval⟩ := mulChain_spec f g dtl btl order.tail cc
      (hdl.trans hbl.symm) (by rw [hdl]; decide)
    rw [hdl] at hml hmval
    norm_num at hmval
    set e := (mulChain f g dtl btl order.tail cc).1
    set ccF := (mulChain f g dtl btl order.tail cc).2
    set dh2 := dh + ccF with hdh2
    rw [hstep]
    refine ⟨?_, ?_, g, hglt, ?_⟩
    · rw [List.length_append, hml]
      rfl
    · intro z hz
      rcases List.mem_append.mp hz with hz | hz
      · exact hmlim z hz
      · have : z = dh2 % 32768 := by simpa using hz
        omega
    · rw [val15_append, hml]
      have hv1 : val15 [dh2 % 32768] = dh2 % 32768 := by simp [val15]
      rw [hv1]
      have hdm : dh2 % 32768 + 32768 * (dh2 / 32768) = dh2 := by omega
      have hnt : n = 24177 + 32768 * val15 order.tail := n_tail
      have hv15d : val15 (d0 :: dtl) = d0 + 32768 * val15 dtl := rfl
      have hv15b : val15 (b0 :: btl) = b0 + 32768 * val15 btl := rfl
      rw [hv15d, hv15b, N0_val] at *
      have htZ : (t : ℤ) = (d0 : ℤ) + (f : ℤ) * (b0 : ℤ) := by
        rw [ht]; push_cast; ring
      have hdh2Z : (dh2 : ℤ) = (dh : ℤ) + (ccF : ℤ) := by
        rw [hdh2]; push_cast; ring
      zify at hmval h32 hdm hnt ⊢
      norm_num
      linear_combination (32768 : ℤ) * hmval
        + (57896044618658097711785492504343953926634992332820282019728792003956564819968 : ℤ) * hdm
        + (57896044618658097711785492504343953926634992332820282019728792003956564819968 : ℤ) * hdh2Z
        + h32 + htZ - (g : ℤ) * hnt

/-- The outer Montgomery loop: after consuming the limbs `fs`, the value
has been multiplied by `fs`'s contribution and divided by `2^15` per limb,
up to a multiple `K * n` with `K < 32768 ^ |fs|`. -/
lemma mmulGo_spec (b : List ℕ) (hb : b.length = 17) : ∀ (fs d : List ℕ) (dh : ℕ),
    d.length = 17 → (∀ x ∈ d, x < 32768) →
    (mmulGo b fs (d, dh)).1.length = 17 ∧
    (∀ x ∈ (mmulGo b fs (d, dh)).1, x < 32768) ∧
    ∃ K, K < 32768 ^ fs.length ∧
      32768 ^ fs.length *
          (val15 (mmulGo b fs (d, dh)).1 + 2 ^ 255 * (mmulGo b fs (d, dh)).2)
        = val15 d + 2 ^ 255 * dh + val15 fs * val15 b + K * n := by
  intro fs
  induction fs with
  | nil =>
    intro d dh hd hdl
    refine ⟨hd, hdl, 0, by norm_num, ?_⟩
    simp [mmulGo, val15]
  | cons f fs ih =>
    intro d dh hd hdl
    obtain ⟨hsl, hslim, g, hglt, hgval⟩ := mmulStep_spec b d dh f hd hb
    have hgo : mmulGo b (f :: fs) (d, dh)
        = mmulGo b fs ((mmulStep b d dh f).1, (mmulStep b d dh f).2) := rfl
    rw [hgo]
    obtain ⟨ihl, ihlim, K, hKlt, hKval⟩ := ih (mmulStep b d dh f).1 (mmulStep b d dh f).2
      hsl hslim
    refine ⟨ihl, ihlim, g + 32768 * K, ?_, ?_⟩
    · have : 32768 ^ (f :: fs).length = 32768 * 32768 ^ fs.length := by
        rw [List.length_cons, pow_succ]; ring
      rw [this]
      omega
    · have hlen : (32768 : ℕ) ^ (f :: fs).length = 32768 * 32768 ^ fs.length := by
        rw [List.length_cons, pow_succ]; ring
      rw [hlen]
      have hval15 : val15 (f :: fs) = f + 32768 * val15 fs := rfl
      rw [hval15]
      zify at hgval hKval ⊢
      linear_combination (32768 : ℤ) * hKval + hgval

/-- `scalar_mmul` is the Montgomery product: below `1.18 n` and congruent
to `a * b / 2^255` modulo `n`, for inputs below `1.27 n`. -/
lemma scalar_mmul_spec (a b : List ℕ) (ha : goodScalar a) (hb : goodScalar b)
    (hA : 100 * val15 a < 127 * n) (hB : 100 * val15 b < 127 * n) :
    goodScalar (scalar_mmul a b) ∧
    100 * val15 (scalar_mmul a b) < 118 * n ∧
    2 ^ 255 * val15 (scalar_mmul a b) ≡ val15 a * val15 b [MOD n] := by
  obtain ⟨ha17, hal⟩ := ha
  obtain ⟨hb17, hbl⟩ := hb
  obtain ⟨hgl, hglim, K, hKlt, hKval⟩ := mmulGo_spec b hb17 a (List.replicate 17 0) 0
    (by decide) (by decide)
  rw [ha17] at hKlt hKval
  rw [val15_replicate_zero] at hKval
  norm_num at hKlt hKval
  have hprod : 10000 * (val15 a * val15 b) < 16129 * (n * n) := by
    have h1 : 100 * val15 a * (100 * val15 b) < 127 * n * (127 * n) :=
      Nat.mul_lt_mul'' hA hB
    calc 10000 * (val15 a * val15 b) = 100 * val15 a * (100 * val15 b) := by ring
      _ < 127 * n * (127 * n) := h1
      _ = 16129 * (n * n) := by ring
  have hnn : 16129 * (n * n) ≤ 1800 * 2 ^ 255 * n := by
    have h2 : 16129 * n ≤ 1800 * 2 ^ 255 := by rw [n_val]; omega
    calc 16129 * (n * n) = 16129 * n * n := by ring
      _ ≤ 1800 * 2 ^ 255 * n := Nat.mul_le_mul_right n h2
  have hKn : K * n + n ≤ 2 ^ 255 * n := by
    have h3 : (K + 1) * n ≤ 2 ^ 255 * n := Nat.mul_le_mul_right n (by omega)
    calc K * n + n = (K + 1) * n := by ring
      _ ≤ 2 ^ 255 * n := h3
  have hn1 : n < 2 ^ 252 := n_lt_pow252
  have hn2 : 2 ^ 251 < n := pow251_lt_n
  have hbound : 100 * (val15 (mmulGo b a (List.replicate 17 0, 0)).1
      + 2 ^ 255 * (mmulGo b a (List.replicate 17 0, 0)).2) < 118 * n := by
    omega
  have hdh0 : (mmulGo b a (List.replicate 17 0, 0)).2 = 0 := by omega
  have hmm : scalar_mmul a b = (mmulGo b a (List.replicate 17 0, 0)).1 := rfl
  rw [hmm]
  refine ⟨⟨hgl, hglim⟩, by omega, ?_⟩
  show 2 ^ 255 * val15 (mmulGo b a (List.replicate 17 0, 0)).1 % n
      = val15 a * val15 b % n
  rw [hdh0] at hKval
  norm_num at hKval
  have hpow : (2 : ℕ) ^ 255
      = 57896044618658097711785492504343953926634992332820282019728792003956564819968 := by
    norm_num
  rw [hpow, hKval, Nat.add_mul_mod_self_right]

lemma sR2_good : goodScalar sR2 := by decide

lemma sR2_bound : 100 * val15 sR2 < 127 * n := by decide

set_option maxRecDepth 8000 in
lemma sR2_congr : val15 sR2 ≡ 2 ^ 510 [MOD n] := by
  show val15 sR2 % n = 2 ^ 510 % n
  decide

/-- Modular inverse of `2^510` modulo `n`, used to cancel the two
Montgomery divisions when reasoning about the full multiplication. -/
def inv510 : ℕ :=
  381955835619062327912480283742603488507257826854950173653616860778163588859

set_option maxRecDepth 8000 in
lemma inv510_spec : inv510 * 2 ^ 510 ≡ 1 [MOD n] := by
  show inv510 * 2 ^ 510 % n = 1 % n
  decide

lemma n_pos : 0 < n := by rw [n_val]; omega

/-- `curve9767_scalar_mul` computes `a * b mod n` (up to the documented
range), composing the two Montgomery multiplications. -/
lemma curve9767_scalar_mul_spec (a b : List ℕ) (ha : goodScalar a) (hb : goodScalar b)
    (hA : 100 * val15 a < 127 * n) (hB : 100 * val15 b < 127 * n) :
    goodScalar (curve9767_scalar_mul a b) ∧
    100 * val15 (curve9767_scalar_mul a b) < 118 * n ∧
    val15 (curve9767_scalar_mul a b) ≡ val15 a * val15 b [MOD n] := by
  obtain ⟨tg, tb, tc⟩ := scalar_mmul_spec a sR2 ha sR2_good hA sR2_bound
  obtain ⟨og, ob, oc⟩ := scalar_mmul_spec (scalar_mmul a sR2) b tg hb (by omega) hB
  have hmul : curve9767_scalar_mul a b = scalar_mmul (scalar_mmul a sR2) b := rfl
  rw [hmul]
  refine ⟨og, ob, ?_⟩
  have hchain : 2 ^ 510 * val15 (scalar_mmul (scalar_mmul a sR2) b)
      ≡ 2 ^ 510 * (val15 a * val15 b) [MOD n] := by
    calc 2 ^ 510 * val15 (scalar_mmul (scalar_mmul a sR2) b)
        = 2 ^ 255 * (2 ^ 255 * val15 (scalar_mmul (scalar_mmul a sR2) b)) := by ring
      _ ≡ 2 ^ 255 * (val15 (scalar_mmul a sR2) * val15 b) [MOD n] := oc.mul_left _
      _ = 2 ^ 255 * val15 (scalar_mmul a sR2) * val15 b := by ring
      _ ≡ val15 a * val15 sR2 * val15 b [MOD n] := tc.mul_right _
      _ ≡ val15 a * 2 ^ 510 * val15 b [MOD n] :=
        ((sR2_congr.mul_left (val15 a)).mul_right (val15 b))
      _ = 2 ^ 510 * (val15 a * val15 b) := by ring
  calc val15 (scalar_mmul (scalar_mmul a sR2) b)
      = 1 * val15 (scalar_mmul (scalar_mmul a sR2) b) := (one_mul _).symm
    _ ≡ inv510 * 2 ^ 510 * val15 (scalar_mmul (scalar_mmul a sR2) b) [MOD n] :=
      inv510_spec.symm.mul_right _
    _ = inv510 * (2 ^ 510 * val15 (scalar_mmul (scalar_mmul a sR2) b)) := by ring
    _ ≡ inv510 * (2 ^ 510 * (val15 a * val15 b)) [MOD n] := hchain.mul_left _
    _ = inv510 * 2 ^ 510 * (val15 a * val15 b) := by ring
    _ ≡ 1 * (val15 a * val15 b) [MOD n] := inv510_spec.mul_right _
    _ = val15 a * val15 b := one_mul _

/-!  ## Truncated decoding -/

/-- Splitting a value at a limb boundary inside a power-of-two modulus. -/
lemma mod_shift (x y M : ℕ) (hx : x < 32768) (hM : 0 < M) :
    (x + 32768 * y) % (32768 * M) = x + 32768 * (y % M) := by
  conv_lhs => rw [← Nat.div_add_mod y M]
  have h1 : x + 32768 * (M * (y / M) + y % M)
      = (x + 32768 * (y % M)) + (y / M) * (32768 * M) := by ring
  rw [h1, Nat.add_mul_mod_self_right]
  exact Nat.mod_eq_of_lt (by
    have h2 : y % M < M := Nat.mod_lt y hM
    have h3 : 32768 * (y % M) + 32768 ≤ 32768 * M := by
      calc 32768 * (y % M) + 32768 = 32768 * (y % M + 1) := by ring
        _ ≤ 32768 * M := Nat.mul_le_mul_left _ (by omega)
    omega)

lemma dtgo_nil (u acc acc_len : ℕ) :
    dtgo [] u acc acc_len = if 0 < acc_len then [acc] else [] := rfl

lemma dtgo_cons (b : ℕ) (rest : List ℕ) (u acc acc_len : ℕ) :
    dtgo (b :: rest) u acc acc_len =
      if u = 31 then [acc ||| ((b &&& 15) <<< 8)]
      else if 15 ≤ acc_len + 8 then
        ((acc ||| (b <<< acc_len)) % 32768) ::
          dtgo rest (u + 1) ((acc ||| (b <<< acc_len)) >>> 15) (acc_len + 8 - 15)
      else dtgo rest (u + 1) (acc ||| (b <<< acc_len)) (acc_len + 8) := rfl

/-- Invariant of the `scalar_decode_trunc` loop.  `k` counts the limbs
already emitted before this call (so `8 u = 15 k + acc_len`); the
remaining output holds the accumulator plus the remaining bytes, reduced
modulo the remaining capacity `2 ^ (252 - 15 k)`. -/
lemma dtgo_spec : ∀ (buf : List ℕ) (u acc acc_len k : ℕ),
    u ≤ 31 → acc < 2 ^ acc_len → acc_len < 15 → 8 * u = 15 * k + acc_len →
    (∀ b ∈ buf, b < 256) →
    (∀ x ∈ dtgo buf u acc acc_len, x < 32768) ∧
    (dtgo buf u acc acc_len).length + k ≤ 17 ∧
    val15 (dtgo buf u acc acc_len)
      = (acc + bytesVal buf * 2 ^ acc_len) % 2 ^ (252 - 15 * k) := by
  intro buf
  induction buf with
  | nil =>
    intro u acc acc_len k hu hacc hal hk _
    have hk16 : k ≤ 16 := by omega
    have hcap : acc_len ≤ 252 - 15 * k := by omega
    have haccap : acc < 2 ^ (252 - 15 * k) :=
      lt_of_lt_of_le hacc (Nat.pow_le_pow_right (by norm_num) hcap)
    rw [dtgo_nil]
    rcases Nat.eq_zero_or_pos acc_len with h0 | h0
    · have hacc0 : acc = 0 := by rw [h0] at hacc; omega
      rw [if_neg (by omega)]
      refine ⟨by simp, by simp; omega, ?_⟩
      simp [val15, bytesVal, hacc0]
    · rw [if_pos h0]
      refine ⟨?_, by simp; omega, ?_⟩
      · intro x hx
        have hx' : x = acc := by simpa using hx
        have h1 := Nat.pow_le_pow_right (show (1:ℕ) ≤ 2 by norm_num)
          (show acc_len ≤ 14 by omega)
        have h14 : (2:ℕ) ^ 14 = 16384 := by norm_num
        omega
      · show acc + 32768 * val15 [] = _
        simp only [val15, bytesVal]
        rw [Nat.mod_eq_of_lt (by omega)]
        omega
  | cons b rest ih =>
    intro u acc acc_len k hu hacc hal hk hbs
    have hb : b < 256 := hbs b (by simp)
    have hbr : ∀ z ∈ rest, z < 256 := fun z hz => hbs z (by simp [hz])
    rw [dtgo_cons]
    by_cases h31 : u = 31
    · -- u = 31: last nibble, early return
      subst h31
      have hk16 : k = 16 := by omega
      have hal8 : acc_len = 8 := by omega
      subst hk16; subst hal8
      rw [if_pos rfl]
      have hand : b &&& 15 = b % 16 := by
        have h15 : (15 : ℕ) = 2 ^ 4 - 1 := by norm_num
        rw [h15, Nat.and_pow_two_sub_one_eq_mod]
      have hor : acc ||| ((b % 16) <<< 8) = 2 ^ 8 * (b % 16) + acc := by
        rw [Nat.shiftLeft_eq, mul_comm (b % 16) (2 ^ 8), Nat.lor_comm]
        exact (Nat.mul_add_lt_is_or (by norm_num at hacc ⊢; omega) (b % 16)).symm
      rw [hand, hor]
      have hacc8 : acc < 256 := by norm_num at hacc; omega
      refine ⟨?_, by simp, ?_⟩
      · intro x hx
        have hx' : x = 2 ^ 8 * (b % 16) + acc := by simpa using hx
        omega
      · show 2 ^ 8 * (b % 16) + acc + 32768 * val15 [] = _
        show _ = (acc + (b + 256 * bytesVal rest) * 2 ^ 8) % 2 ^ (252 - 15 * 16)
        simp only [val15]
        norm_num
        omega
    · -- u < 31: absorb the byte
      rw [if_neg h31]
      have hu30 : u ≤ 30 := by omega
      have hor : acc ||| (b <<< acc_len) = 2 ^ acc_len * b + acc := by
        rw [Nat.shiftLeft_eq, mul_comm b (2 ^ acc_len), Nat.lor_comm]
        exact (Nat.mul_add_lt_is_or hacc b).symm
      have hacc2 : 2 ^ acc_len * b + acc < 2 ^ (acc_len + 8) := by
        have h1 : 2 ^ acc_len * b + acc < 2 ^ acc_len * b + 2 ^ acc_len :=
          Nat.add_lt_add_left hacc _
        have h2 : 2 ^ acc_len * b + 2 ^ acc_len = 2 ^ acc_len * (b + 1) := by ring
        have h3 : 2 ^ acc_len * (b + 1) ≤ 2 ^ acc_len * 256 :=
          Nat.mul_le_mul_left _ (by omega)
        have h4 : 2 ^ acc_len * 256 = 2 ^ (acc_len + 8) := by rw [pow_add]; norm_num
        omega
      rcases Nat.lt_or_ge (acc_len + 8) 15 with hlt15 | hge15
      · -- no limb emitted
        rw [if_neg (by omega), hor]
        obtain ⟨ihm, ihl, ihv⟩ := ih (u + 1) (2 ^ acc_len * b + acc) (acc_len + 8) k
          (by omega) hacc2 (by omega) (by omega) hbr
        refine ⟨ihm, ihl, ?_⟩
        rw [ihv]
        congr 1
        show _ = acc + (b + 256 * bytesVal rest) * 2 ^ acc_len
        rw [pow_add]
        ring
      · -- emit one limb
        rw [if_pos (by omega), hor]
        have hshr : (2 ^ acc_len * b + acc) >>> 15 = (2 ^ acc_len * b + acc) / 32768 := by
          rw [Nat.shiftRight_eq_div_pow]
        have hdiv : (2 ^ acc_len * b + acc) / 32768 < 2 ^ (acc_len + 8 - 15) := by
          rw [Nat.div_lt_iff_lt_mul (by norm_num)]
          calc 2 ^ acc_len * b + acc < 2 ^ (acc_len + 8) := hacc2
            _ = 2 ^ (acc_len + 8 - 15) * 32768 := by
              rw [show (32768 : ℕ) = 2 ^ 15 by norm_num, ← pow_add]
              congr 1
              omega
        rw [hshr]
        obtain ⟨ihm, ihl, ihv⟩ := ih (u + 1) ((2 ^ acc_len * b + acc) / 32768)
          (acc_len + 8 - 15) (k + 1) (by omega) hdiv (by omega) (by omega) hbr
        have hk15 : k + 1 ≤ 16 := by omega
        refine ⟨?_, by simp only [List.length_cons]; omega, ?_⟩
        · intro x hx
          rcases List.mem_cons.mp hx with hx | hx
          · have := Nat.mod_lt (2 ^ acc_len * b + acc) (show 0 < 32768 by norm_num)
            omega
          · exact ihm x hx
        · show (2 ^ acc_len * b + acc) % 32768
              + 32768 * val15 (dtgo rest (u + 1) ((2 ^ acc_len * b + acc) / 32768)
                (acc_len + 8 - 15)) = _
          rw [ihv]
          have hexp : 2 ^ (252 - 15 * k) = 32768 * 2 ^ (252 - 15 * (k + 1)) := by
            rw [show 252 - 15 * k = 15 + (252 - 15 * (k + 1)) by omega, pow_add]
            norm_num
          rw [hexp]
          rw [← mod_shift ((2 ^ acc_len * b + acc) % 32768)
            ((2 ^ acc_len * b + acc) / 32768 + bytesVal rest * 2 ^ (acc_len + 8 - 15))
            (2 ^ (252 - 15 * (k + 1)))
            (Nat.mod_lt _ (by norm_num)) (Nat.pos_pow_of_pos _ (by norm_num))]
          congr 1
          have hdm : 32768 * ((2 ^ acc_len * b + acc) / 32768)
              + (2 ^ acc_len * b + acc) % 32768 = 2 ^ acc_len * b + acc := by omega
          have h2 : (32768 : ℕ) * 2 ^ (acc_len + 8 - 15) = 2 ^ acc_len * 256 := by
            rw [show (32768 : ℕ) = 2 ^ 15 by norm_num,
              show (256 : ℕ) = 2 ^ 8 by norm_num, ← pow_add, ← pow_add]
            congr 1
            omega
          show _ = acc + (b + 256 * bytesVal rest) * 2 ^ acc_len
          zify at hdm h2 ⊢
          linear_combination hdm + (bytesVal rest : ℤ) * h2

/-- `scalar_decode_trunc` computes the little-endian byte value reduced
modulo `2^252`, as 17 good limbs. -/
lemma scalar_decode_trunc_spec (src : List ℕ) (hb : ∀ b ∈ src, b < 256) :
    goodScalar (scalar_decode_trunc src) ∧
    val15 (scalar_decode_trunc src) = bytesVal src % 2 ^ 252 := by
  obtain ⟨hm, hl, hv⟩ := dtgo_spec src 0 0 0 0 (by omega) (by norm_num) (by omega)
    (by omega) hb
  have htr : scalar_decode_trunc src
      = dtgo src 0 0 0 ++ List.replicate (17 - (dtgo src 0 0 0).length) 0 := rfl
  norm_num at hv
  refine ⟨⟨?_, ?_⟩, ?_⟩
  · rw [htr, List.length_append, List.length_replicate]
    omega
  · intro x hx
    rw [htr] at hx
    rcases List.mem_append.mp hx with hx | hx
    · exact hm x hx
    · have : x = 0 := List.eq_of_mem_replicate hx
      omega
  · rw [htr, val15_append, val15_replicate_zero, Nat.mul_zero, Nat.add_zero, hv]
    norm_num

/-!  ## Reducing decode -/

lemma sD_good : goodScalar sD := by decide

lemma sD_bound : 100 * val15 sD < 127 * n := by decide

set_option maxRecDepth 8000 in
lemma sD_congr : val15 sD ≡ 2 ^ 503 [MOD n] := by
  show val15 sD % n = 2 ^ 503 % n
  decide

/-- Modular inverse of `2^255` modulo `n`, used to cancel a single
Montgomery division. -/
def inv255 : ℕ :=
  1607730755294444423505897925377571040904942823462006752574531681848961116960

set_option maxRecDepth 8000 in
lemma inv255_spec : inv255 * 2 ^ 255 ≡ 1 [MOD n] := by
  show inv255 * 2 ^ 255 % n = 1 % n
  decide

/-- One iteration of the `decode_reduce` loop: multiply by `2^248`
(Montgomery multiplication by `sD`) and add the decoded 31-byte chunk.
The `1.27 n` bound is preserved. -/
lemma reduceStep_spec (src s : List ℕ) (k : ℕ) (hs : goodScalar s)
    (hbound : 100 * val15 s < 127 * n) (hb : ∀ b ∈ src, b < 256) :
    goodScalar (reduceStep src s k) ∧
    100 * val15 (reduceStep src s k) < 127 * n ∧
    val15 (reduceStep src s k)
      ≡ 2 ^ 248 * val15 s + bytesVal ((src.drop (31 * k)).take 31) [MOD n] := by
  have hn1 : n < 2 ^ 252 := n_lt_pow252
  have hn2 : 2 ^ 251 < n := pow251_lt_n
  obtain ⟨mg, mb, mc⟩ := scalar_mmul_spec s sD hs sD_good hbound sD_bound
  have hchunk : ∀ z ∈ (src.drop (31 * k)).take 31, z < 256 := fun z hz =>
    hb z (List.drop_subset _ _ (List.take_subset _ _ hz))
  obtain ⟨cg, cv⟩ := scalar_decode_trunc_spec ((src.drop (31 * k)).take 31) hchunk
  have hchlen : ((src.drop (31 * k)).take 31).length ≤ 31 := by
    simp [List.length_take]
  have hchsmall : bytesVal ((src.drop (31 * k)).take 31) < 2 ^ 248 := by
    have h1 := bytesVal_lt _ hchunk
    have h2 : (256 : ℕ) ^ ((src.drop (31 * k)).take 31).length ≤ 256 ^ 31 :=
      Nat.pow_le_pow_right (by norm_num) hchlen
    have h3 : (256 : ℕ) ^ 31 = 2 ^ 248 := by norm_num
    omega
  have hcv : val15 (scalar_decode_trunc ((src.drop (31 * k)).take 31))
      = bytesVal ((src.drop (31 * k)).take 31) := by
    rw [cv, Nat.mod_eq_of_lt (by omega)]
  obtain ⟨ag, alt, amod⟩ := scalar_add_spec (scalar_mmul s sD)
    (scalar_decode_trunc ((src.drop (31 * k)).take 31)) mg cg (by omega)
  have hrs : reduceStep src s k = scalar_add (scalar_mmul s sD)
      (scalar_decode_trunc ((src.drop (31 * k)).take 31)) := rfl
  rw [hrs]
  refine ⟨ag, by rw [n_val] at *; omega, ?_⟩
  have hmm : val15 (scalar_mmul s sD) ≡ 2 ^ 248 * val15 s [MOD n] := by
    have hch : 2 ^ 255 * val15 (scalar_mmul s sD)
        ≡ 2 ^ 255 * (2 ^ 248 * val15 s) [MOD n] := by
      calc 2 ^ 255 * val15 (scalar_mmul s sD)
          ≡ val15 s * val15 sD [MOD n] := mc
        _ ≡ val15 s * 2 ^ 503 [MOD n] := sD_congr.mul_left _
        _ = 2 ^ 255 * (2 ^ 248 * val15 s) := by ring
    calc val15 (scalar_mmul s sD) = 1 * val15 (scalar_mmul s sD) := (one_mul _).symm
      _ ≡ inv255 * 2 ^ 255 * val15 (scalar_mmul s sD) [MOD n] := inv255_spec.symm.mul_right _
      _ = inv255 * (2 ^ 255 * val15 (scalar_mmul s sD)) := by ring
      _ ≡ inv255 * (2 ^ 255 * (2 ^ 248 * val15 s)) [MOD n] := hch.mul_left _
      _ = inv255 * 2 ^ 255 * (2 ^ 248 * val15 s) := by ring
      _ ≡ 1 * (2 ^ 248 * val15 s) [MOD n] := inv255_spec.mul_right _
      _ = 2 ^ 248 * val15 s := one_mul _
  calc val15 (scalar_add (scalar_mmul s sD)
        (scalar_decode_trunc ((src.drop (31 * k)).take 31)))
      ≡ val15 (scalar_mmul s sD)
        + val15 (scalar_decode_trunc ((src.drop (31 * k)).take 31)) [MOD n] := amod
    _ = val15 (scalar_mmul s sD) + bytesVal ((src.drop (31 * k)).take 31) := by rw [hcv]
    _ ≡ 2 ^ 248 * val15 s + bytesVal ((src.drop (31 * k)).take 31) [MOD n] :=
      hmm.add_right _

/-- The chunk loop of `decode_reduce`: after `k` iterations the scalar is
congruent to the seed shifted up by `248 k` bits plus the low `31 k` bytes. -/
lemma drgo_spec (src : List ℕ) (hb : ∀ b ∈ src, b < 256) : ∀ (k : ℕ) (s : List ℕ),
    goodScalar s → 100 * val15 s < 127 * n →
    goodScalar (drgo src k s) ∧ 100 * val15 (drgo src k s) < 127 * n ∧
    val15 (drgo src k s)
      ≡ 2 ^ (248 * k) * val15 s + bytesVal (src.take (31 * k)) [MOD n] := by
  intro k
  induction k with
  | zero =>
    intro s hs hbound
    refine ⟨hs, hbound, ?_⟩
    have h0 : 2 ^ (248 * 0) * val15 s + bytesVal (src.take (31 * 0)) = val15 s := by
      norm_num [bytesVal]
    unfold Nat.ModEq
    rw [h0]
    rfl
  | succ k ih =>
    intro s hs hbound
    obtain ⟨rg, rb, rc⟩ := reduceStep_spec src s k hs hbound hb
    have hstep : drgo src (k + 1) s = drgo src k (reduceStep src s k) := rfl
    rw [hstep]
    obtain ⟨ig, ib, ic⟩ := ih (reduceStep src s k) rg rb
    refine ⟨ig, ib, ?_⟩
    have hsplit : bytesVal (src.take (31 * (k + 1)))
        = bytesVal (src.take (31 * k))
          + 2 ^ (248 * k) * bytesVal ((src.drop (31 * k)).take 31) := by
      have h1 : src.take (31 * k + 31) = src.take (31 * k) ++ (src.drop (31 * k)).take 31 :=
        List.take_add src (31 * k) 31
      have h2 : 31 * (k + 1) = 31 * k + 31 := by ring
      rw [h2, h1, bytesVal_append]
      have h3 : (src.take (31 * k)).length = min (31 * k) src.length :=
        List.length_take _ _
      rcases Nat.le_total (31 * k) src.length with hle | hle
      · have h4 : (src.take (31 * k)).length = 31 * k := by omega
        rw [h4]
        have h5 : (256 : ℕ) ^ (31 * k) = 2 ^ (248 * k) := by
          rw [show (256 : ℕ) = 2 ^ 8 by norm_num, ← pow_mul]
          congr 1
          ring
        rw [h5]
      · have h6 : src.drop (31 * k) = [] := List.drop_eq_nil_of_le hle
        rw [h6]
        simp [bytesVal]
    calc val15 (drgo src k (reduceStep src s k))
        ≡ 2 ^ (248 * k) * val15 (reduceStep src s k)
          + bytesVal (src.take (31 * k)) [MOD n] := ic
      _ ≡ 2 ^ (248 * k) * (2 ^ 248 * val15 s + bytesVal ((src.drop (31 * k)).take 31))
          + bytesVal (src.take (31 * k)) [MOD n] := (rc.mul_left _).add_right _
      _ = 2 ^ (248 * (k + 1)) * val15 s + bytesVal (src.take (31 * (k + 1))) := by
        rw [hsplit]
        rw [show 248 * (k + 1) = 248 * k + 248 by ring, pow_add]
        ring

/-- `curve9767_scalar_decode_reduce` computes the byte value modulo `n`
(up to the `1.27 n` redundancy), for byte strings of any length. -/
lemma decode_reduce_spec (src : List ℕ) (hb : ∀ b ∈ src, b < 256) :
    goodScalar (curve9767_scalar_decode_reduce src) ∧
    100 * val15 (curve9767_scalar_decode_reduce src) < 127 * n ∧
    val15 (curve9767_scalar_decode_reduce src) ≡ bytesVal src [MOD n] := by
  have hn1 : n < 2 ^ 252 := n_lt_pow252
  have hn2 : 2 ^ 251 < n := pow251_lt_n
  have hdr : curve9767_scalar_decode_reduce src
      = if src.length ≤ 31 then scalar_decode_trunc src
        else drgo src (31 * ((src.length - 1) / 31) / 31)
          (scalar_decode_trunc (src.drop (31 * ((src.length - 1) / 31)))) := rfl
  rw [hdr]
  rcases Nat.lt_or_ge src.length 32 with hlen | hlen
  · rw [if_pos (by omega : src.length ≤ 31)]
    obtain ⟨tg, tv⟩ := scalar_decode_trunc_spec src hb
    have hsmall : bytesVal src < 2 ^ 248 := by
      have h1 := bytesVal_lt src hb
      have h2 : (256 : ℕ) ^ src.length ≤ 256 ^ 31 :=
        Nat.pow_le_pow_right (by norm_num) (by omega)
      have h3 : (256 : ℕ) ^ 31 = 2 ^ 248 := by norm_num
      omega
    have hv : val15 (scalar_decode_trunc src) = bytesVal src := by
      rw [tv, Nat.mod_eq_of_lt (by omega)]
    refine ⟨tg, ?_, by unfold Nat.ModEq; rw [hv]⟩
    rw [hv, n_val]
    omega
  · rw [if_neg (by omega)]
    set u := 31 * ((src.length - 1) / 31) with hu
    have hu31 : u / 31 = (src.length - 1) / 31 := by
      rw [hu, Nat.mul_div_cancel_left _ (by norm_num)]
    have hule : u ≤ src.length - 1 := by
      rw [hu]
      calc 31 * ((src.length - 1) / 31) = (src.length - 1) / 31 * 31 := by ring
        _ ≤ src.length - 1 := Nat.div_mul_le_self _ _
    have hdrop : ∀ z ∈ src.drop u, z < 256 := fun z hz => hb z (List.drop_subset _ _ hz)
    obtain ⟨sg, sv⟩ := scalar_decode_trunc_spec (src.drop u) hdrop
    have hdlen : (src.drop u).length ≤ 31 := by
      rw [List.length_drop]
      rw [hu]
      have h1 := Nat.div_add_mod (src.length - 1) 31
      have h2 : (src.length - 1) % 31 < 31 := Nat.mod_lt _ (by norm_num)
      omega
    have hsmall : bytesVal (src.drop u) < 2 ^ 248 := by
      have h1 := bytesVal_lt _ hdrop
      have h2 : (256 : ℕ) ^ (src.drop u).length ≤ 256 ^ 31 :=
        Nat.pow_le_pow_right (by norm_num) hdlen
      have h3 : (256 : ℕ) ^ 31 = 2 ^ 248 := by norm_num
      omega
    have hv : val15 (scalar_decode_trunc (src.drop u)) = bytesVal (src.drop u) := by
      rw [sv, Nat.mod_eq_of_lt (by omega)]
    have hsb : 100 * val15 (scalar_decode_trunc (src.drop u)) < 127 * n := by
      rw [hv, n_val]
      omega
    obtain ⟨dg, db, dc⟩ := drgo_spec src hb (u / 31) (scalar_decode_trunc (src.drop u))
      sg hsb
    refine ⟨dg, db, ?_⟩
    have h31u : 31 * (u / 31) = u := by
      rw [hu31, hu]
    have hfull : bytesVal src = bytesVal (src.take u) + 2 ^ (248 * (u / 31)) * bytesVal (src.drop u) := by
      conv_lhs => rw [← List.take_append_drop u src]
      rw [bytesVal_append]
      have h4 : (src.take u).length = u := by
        rw [List.length_take]
        omega
      rw [h4]
      have h5 : (256 : ℕ) ^ u = 2 ^ (248 * (u / 31)) := by
        rw [show (256 : ℕ) = 2 ^ 8 by norm_num, ← pow_mul]
        congr 1
        omega
      rw [h5]
    calc val15 (drgo src (u / 31) (scalar_decode_trunc (src.drop u)))
        ≡ 2 ^ (248 * (u / 31)) * val15 (scalar_decode_trunc (src.drop u))
          + bytesVal (src.take (31 * (u / 31))) [MOD n] := dc
      _ = bytesVal src := by
        rw [hv, h31u, hfull]
        ring

/-!  ## Strict decode -/

lemma lor_eq_zero {x y : ℕ} (h : x ||| y = 0) : x = 0 ∧ y = 0 := by
  constructor <;> [apply Nat.zero_of_testBit_eq_false; apply Nat.zero_of_testBit_eq_false] <;>
    intro i <;>
    · have hbit := congrArg (fun t => Nat.testBit t i) h
      simp [Nat.testBit_lor] at hbit
      simp [hbit]

/-- The OR-accumulation loop of `decode_strict` is zero iff the seed and
every later byte are zero. -/
lemma foldl_lor_eq_zero_iff : ∀ (l : List ℕ) (x : ℕ),
    (l.foldl (fun a b => a ||| b) x = 0) ↔ (x = 0 ∧ ∀ z ∈ l, z = 0) := by
  intro l
  induction l with
  | nil => intro x; simp
  | cons b rest ih =>
    intro x
    show (rest.foldl _ (x ||| b) = 0) ↔ _
    rw [ih]
    constructor
    · rintro ⟨hxb, hrest⟩
      obtain ⟨hx, hbz⟩ := lor_eq_zero hxb
      refine ⟨hx, fun z hz => ?_⟩
      rcases List.mem_cons.mp hz with h | h
      · exact h ▸ hbz
      · exact hrest z h
    · rintro ⟨hx, hall⟩
      have hbz : b = 0 := hall b (by simp)
      refine ⟨by rw [hx, hbz]; rfl, fun z hz => hall z (by simp [hz])⟩

lemma bytesVal_eq_zero_iff : ∀ l : List ℕ, bytesVal l = 0 ↔ ∀ z ∈ l, z = 0 := by
  intro l
  induction l with
  | nil => simp [bytesVal]
  | cons b rest ih =>
    show b + 256 * bytesVal rest = 0 ↔ _
    constructor
    · intro h
      have hbz : b = 0 ∧ bytesVal rest = 0 := by omega
      intro z hz
      rcases List.mem_cons.mp hz with h1 | h1
      · omega
      · exact (ih.mp hbz.2) z h1
    · intro h
      have hbz : b = 0 := h b (by simp)
      have hrz : bytesVal rest = 0 := ih.mpr (fun z hz => h z (by simp [hz]))
      omega

lemma land_one_iff (x y : ℕ) (hx : x ≤ 1) (hy : y ≤ 1) :
    (x &&& y) = 1 ↔ x = 1 ∧ y = 1 := by
  interval_cases x <;> interval_cases y <;> decide

lemma headD_drop : ∀ (l : List ℕ) (i : ℕ), (l.drop i).headD 0 = l.getD i 0 := by
  intro l
  induction l with
  | nil => intro i; simp
  | cons x xs ih =>
    intro i
    match i with
    | 0 => rfl
    | i + 1 => exact ih i

/-- Decomposition of a byte string of length at least 32 around the
boundary that `decode_strict` checks: low 31 bytes, byte 31, the rest. -/
lemma bytesVal_split32 (src : List ℕ) (hlen : 32 ≤ src.length) :
    bytesVal src = bytesVal (src.take 31) + 2 ^ 248 * src.getD 31 0
      + 2 ^ 256 * bytesVal (src.drop 32) := by
  conv_lhs => rw [← List.take_append_drop 32 src]
  rw [bytesVal_append]
  have h32 : (src.take 32).length = 32 := by
    rw [List.length_take]
    omega
  rw [h32]
  have hta : src.take 32 = src.take 31 ++ (src.drop 31).take 1 := List.take_add src 31 1
  obtain ⟨h, t, hht⟩ : ∃ h t, src.drop 31 = h :: t := by
    cases hd : src.drop 31 with
    | nil =>
      exfalso
      have := List.length_drop 31 src
      rw [hd] at this
      simp at this
      omega
    | cons h t => exact ⟨h, t, rfl⟩
  have hh : h = src.getD 31 0 := by
    rw [← headD_drop src 31, hht]
    rfl
  have ht1 : (src.drop 31).take 1 = [src.getD 31 0] := by
    rw [hht, hh]
    rfl
  rw [hta, ht1, bytesVal_append]
  have h31 : (src.take 31).length = 31 := by
    rw [List.length_take]
    omega
  rw [h31]
  have hb1 : bytesVal [src.getD 31 0] = src.getD 31 0 := by
    show src.getD 31 0 + 256 * bytesVal [] = _
    simp [bytesVal]
  rw [hb1]
  norm_num

/-- Full characterization of `curve9767_scalar_decode_strict`:
the flag accepts exactly the byte strings whose little-endian value is a
canonical scalar, and the output scalar is always the normalization of
the low 252 bits. -/
lemma decode_strict_spec (src : List ℕ) (hb : ∀ b ∈ src, b < 256) :
    goodScalar (curve9767_scalar_decode_strict src).1 ∧
    ((curve9767_scalar_decode_strict src).2 = 1 ↔ bytesVal src < n) ∧
    (src.length < 32 →
      (curve9767_scalar_decode_strict src).2 = 1 ∧
      val15 (curve9767_scalar_decode_strict src).1 = bytesVal src) ∧
    (32 ≤ src.length →
      val15 (curve9767_scalar_decode_strict src).1 = (bytesVal src % 2 ^ 252) % n) := by
  have hn1 : n < 2 ^ 252 := n_lt_pow252
  have hn2 : 2 ^ 251 < n := pow251_lt_n
  have h248n : 2 ^ 248 < n := by rw [n_val]; omega
  obtain ⟨tg, tv⟩ := scalar_decode_trunc_spec src hb
  have hds : curve9767_scalar_decode_strict src =
      if 32 ≤ src.length then
        ((scalar_normalize (scalar_decode_trunc src)).1,
         (if (src.drop 32).foldl (fun x b => x ||| b) (src.getD 31 0 >>> 4) = 0
            then 1 else 0)
           &&& (scalar_normalize (scalar_decode_trunc src)).2)
      else (scalar_decode_trunc src, 1) := rfl
  rw [hds]
  rcases Nat.lt_or_ge src.length 32 with hlen | hlen
  · rw [if_neg (by omega)]
    have hsmall : bytesVal src < 2 ^ 248 := by
      have h1 := bytesVal_lt src hb
      have h2 : (256 : ℕ) ^ src.length ≤ 256 ^ 31 :=
        Nat.pow_le_pow_right (by norm_num) (by omega)
      have h3 : (256 : ℕ) ^ 31 = 2 ^ 248 := by norm_num
      omega
    have hv : val15 (scalar_decode_trunc src) = bytesVal src := by
      rw [tv, Nat.mod_eq_of_lt (by omega)]
    exact ⟨tg, by constructor <;> intro _ <;> omega,
      fun _ => ⟨rfl, hv⟩, fun h => absurd h (by omega)⟩
  · rw [if_pos hlen]
    have htlt : val15 (scalar_decode_trunc src) < 2 * n := by
      have := Nat.mod_lt (bytesVal src) (show 0 < 2 ^ 252 by norm_num)
      omega
    obtain ⟨ng, nv, nf, _⟩ := scalar_normalize_spec (scalar_decode_trunc src) tg htlt
    have hb31 : src.getD 31 0 < 256 := by
      have hmem : src.getD 31 0 ∈ src := by
        rw [← headD_drop src 31]
        obtain ⟨h, t, hht⟩ : ∃ h t, src.drop 31 = h :: t := by
          cases hd : src.drop 31 with
          | nil =>
            exfalso
            have := List.length_drop 31 src
            rw [hd] at this
            simp at this
            omega
          | cons h t => exact ⟨h, t, rfl⟩
        rw [hht]
        show h ∈ src
        have : h ∈ src.drop 31 := by rw [hht]; simp
        exact List.drop_subset _ _ this
      exact hb _ hmem
    have hshr : src.getD 31 0 >>> 4 = src.getD 31 0 / 16 := by
      rw [Nat.shiftRight_eq_div_pow]
    have hsplit := bytesVal_split32 src hlen
    have ht31 : bytesVal (src.take 31) < 2 ^ 248 := by
      have h1 := bytesVal_lt (src.take 31) (fun z hz => hb z (List.take_subset 31 src hz))
      have h2 : (256 : ℕ) ^ (src.take 31).length ≤ 256 ^ 31 :=
        Nat.pow_le_pow_right (by norm_num) (by rw [List.length_take]; omega)
      have h3 : (256 : ℕ) ^ 31 = 2 ^ 248 := by norm_num
      omega
    have hfold := foldl_lor_eq_zero_iff (src.drop 32) (src.getD 31 0 >>> 4)
    have hzero := bytesVal_eq_zero_iff (src.drop 32)
    have hkey : ((src.drop 32).foldl (fun x b => x ||| b) (src.getD 31 0 >>> 4) = 0
          ∧ val15 (scalar_decode_trunc src) < n)
        ↔ bytesVal src < n := by
      rw [hfold, hshr, ← hzero, tv]
      omega
    have hrble : (if (src.drop 32).foldl (fun x b => x ||| b) (src.getD 31 0 >>> 4) = 0
        then (1 : ℕ) else 0) ≤ 1 := by
      split <;> omega
    have hnfle : (scalar_normalize (scalar_decode_trunc src)).2 ≤ 1 := by
      rw [nf]
      split <;> omega
    refine ⟨ng, ?_, fun h => absurd h (by omega), fun _ => by rw [nv, tv]⟩
    rw [land_one_iff _ _ hrble hnfle]
    rw [nf]
    constructor
    · rintro ⟨hr1, hf1⟩
      have hr0 : (src.drop 32).foldl (fun x b => x ||| b) (src.getD 31 0 >>> 4) = 0 := by
        by_contra hc
        rw [if_neg hc] at hr1
        omega
      have hlt : val15 (scalar_decode_trunc src) < n := by
        by_contra hc
        rw [if_neg hc] at hf1
        omega
      exact hkey.mp ⟨hr0, hlt⟩
    · intro hvn
      have hk := hkey.mpr hvn
      exact ⟨by rw [if_pos hk.1], by rw [if_pos hk.2]⟩

/-!  ## Canonical encode -/

/-- The byte-emission loop flushes `acc_len / 8` bytes of the accumulator,
little-endian. -/
lemma emitBytes_spec : ∀ (acc_len acc : ℕ),
    (∀ z ∈ (emitBytes acc acc_len).1, z < 256) ∧
    (emitBytes acc acc_len).2.2 = acc_len % 8 ∧
    (emitBytes acc acc_len).1.length = acc_len / 8 ∧
    (emitBytes acc acc_len).2.1 = acc / 256 ^ (acc_len / 8) ∧
    bytesVal (emitBytes acc acc_len).1
      + 256 ^ (acc_len / 8) * (emitBytes acc acc_len).2.1 = acc := by
  intro acc_len
  induction acc_len using Nat.strong_induction_on with
  | _ acc_len ih =>
    intro acc
    rcases Nat.lt_or_ge acc_len 8 with hlt | hge
    · have hres : emitBytes acc acc_len = ([], acc, acc_len) := by
        rw [emitBytes]
        rw [if_neg (by omega)]
      rw [hres]
      refine ⟨by simp, ?_, ?_, ?_, ?_⟩
      · show acc_len = acc_len % 8
        omega
      · show (0 : ℕ) = acc_len / 8
        omega
      · show acc = acc / 256 ^ (acc_len / 8)
        rw [show acc_len / 8 = 0 by omega]
        norm_num
      · show bytesVal [] + 256 ^ (acc_len / 8) * acc = acc
        rw [show acc_len / 8 = 0 by omega]
        simp [bytesVal]
    · have hres : emitBytes acc acc_len
          = ((acc % 256) :: (emitBytes (acc >>> 8) (acc_len - 8)).1,
             (emitBytes (acc >>> 8) (acc_len - 8)).2) := by
        rw [emitBytes]
        rw [if_pos hge]
      have hshr : acc >>> 8 = acc / 256 := by
        rw [Nat.shiftRight_eq_div_pow]
      rw [hshr] at hres
      obtain ⟨ihm, ihf, ihl, ihq, ihv⟩ := ih (acc_len - 8) (by omega) (acc / 256)
      rw [hres]
      refine ⟨?_, ?_, ?_, ?_, ?_⟩
      · intro z hz
        rcases List.mem_cons.mp hz with hz | hz
        · omega
        · exact ihm z hz
      · show (emitBytes (acc / 256) (acc_len - 8)).2.2 = acc_len % 8
        rw [ihf]
        omega
      · show ((acc % 256) :: (emitBytes (acc / 256) (acc_len - 8)).1).length = acc_len / 8
        simp only [List.length_cons]
        omega
      · show (emitBytes (acc / 256) (acc_len - 8)).2.1 = acc / 256 ^ (acc_len / 8)
        rw [ihq, Nat.div_div_eq_div_mul]
        congr 1
        rw [show acc_len / 8 = (acc_len - 8) / 8 + 1 by omega, pow_succ]
        ring
      · show acc % 256 + 256 * bytesVal (emitBytes (acc / 256) (acc_len - 8)).1
            + 256 ^ (acc_len / 8) * (emitBytes (acc / 256) (acc_len - 8)).2.1 = acc
        have hq : acc_len / 8 = (acc_len - 8) / 8 + 1 := by omega
        rw [hq, pow_succ]
        have hdm : 256 * (acc / 256) + acc % 256 = acc := by omega
        zify at ihv hdm ⊢
        linear_combination (256 : ℤ) * ihv + hdm

/-- Invariant of the limb-packing fold in `curve9767_scalar_encode`. -/
lemma encode_fold_spec : ∀ (t bytes : List ℕ) (acc acc_len : ℕ),
    acc < 2 ^ acc_len → acc_len < 8 →
    (∀ x ∈ t, x < 32768) →
    (∀ z ∈ bytes, z < 256) →
    (∀ z ∈ (t.foldl encodeStep (bytes, acc, acc_len)).1, z < 256) ∧
    (t.foldl encodeStep (bytes, acc, acc_len)).2.1
      < 2 ^ (t.foldl encodeStep (bytes, acc, acc_len)).2.2 ∧
    (t.foldl encodeStep (bytes, acc, acc_len)).2.2 < 8 ∧
    8 * (t.foldl encodeStep (bytes, acc, acc_len)).1.length
        + (t.foldl encodeStep (bytes, acc, acc_len)).2.2
      = 8 * bytes.length + acc_len + 15 * t.length ∧
    bytesVal (t.foldl encodeStep (bytes, acc, acc_len)).1
        + 256 ^ (t.foldl encodeStep (bytes, acc, acc_len)).1.length
          * (t.foldl encodeStep (bytes, acc, acc_len)).2.1
      = bytesVal bytes + 256 ^ bytes.length * (acc + val15 t * 2 ^ acc_len) := by
  intro t
  induction t with
  | nil =>
    intro bytes acc acc_len hacc hal _ hbs
    refine ⟨hbs, hacc, hal, by simp, ?_⟩
    simp [val15]
  | cons w ws ih =>
    intro bytes acc acc_len hacc hal hws hbs
    have hw : w < 32768 := hws w (by simp)
    have hwsr : ∀ x ∈ ws, x < 32768 := fun x hx => hws x (by simp [hx])
    have hfold : (w :: ws).foldl encodeStep (bytes, acc, acc_len)
        = ws.foldl encodeStep (encodeStep (bytes, acc, acc_len) w) := rfl
    rw [hfold]
    have hor : acc ||| (w <<< acc_len) = 2 ^ acc_len * w + acc := by
      rw [Nat.shiftLeft_eq, mul_comm w (2 ^ acc_len), Nat.lor_comm]
      exact (Nat.mul_add_lt_is_or hacc w).symm
    have hstep : encodeStep (bytes, acc, acc_len) w
        = (bytes ++ (emitBytes (2 ^ acc_len * w + acc) (acc_len + 15)).1,
           (emitBytes (2 ^ acc_len * w + acc) (acc_len + 15)).2) := by
      show (bytes ++ (emitBytes (acc ||| (w <<< acc_len)) (acc_len + 15)).1,
           (emitBytes (acc ||| (w <<< acc_len)) (acc_len + 15)).2) = _
      rw [hor]
    rw [hstep]
    obtain ⟨em, ef, el, eq2, ev⟩ := emitBytes_spec (acc_len + 15) (2 ^ acc_len * w + acc)
    have hwlt : 2 ^ acc_len * w + acc < 2 ^ (acc_len + 15) := by
      have h1 : 2 ^ acc_len * w + acc < 2 ^ acc_len * w + 2 ^ acc_len :=
        Nat.add_lt_add_left hacc _
      have h2 : 2 ^ acc_len * w + 2 ^ acc_len = 2 ^ acc_len * (w + 1) := by ring
      have h3 : 2 ^ acc_len * (w + 1) ≤ 2 ^ acc_len * 32768 :=
        Nat.mul_le_mul_left _ (by omega)
      have h4 : 2 ^ acc_len * 32768 = 2 ^ (acc_len + 15) := by
        rw [pow_add]
        norm_num
      omega
    have hq2lt : (emitBytes (2 ^ acc_len * w + acc) (acc_len + 15)).2.1
        < 2 ^ ((acc_len + 15) % 8) := by
      rw [eq2]
      rw [Nat.div_lt_iff_lt_mul (Nat.pos_pow_of_pos _ (by norm_num))]
      calc 2 ^ acc_len * w + acc < 2 ^ (acc_len + 15) := hwlt
        _ = 2 ^ ((acc_len + 15) % 8) * 256 ^ ((acc_len + 15) / 8) := by
          rw [show (256 : ℕ) = 2 ^ 8 by norm_num, ← pow_mul, ← pow_add]
          congr 1
          omega
    have hq2 : (emitBytes (2 ^ acc_len * w + acc) (acc_len + 15)).2.1
        < 2 ^ (emitBytes (2 ^ acc_len * w + acc) (acc_len + 15)).2.2 := by
      rw [ef]
      exact hq2lt
    have hbs2 : ∀ z ∈ bytes ++ (emitBytes (2 ^ acc_len * w + acc) (acc_len + 15)).1,
        z < 256 := by
      intro z hz
      rcases List.mem_append.mp hz with hz | hz
      · exact hbs z hz
      · exact em z hz
    obtain ⟨im, iq, il8, ileq, iv⟩ := ih
      (bytes ++ (emitBytes (2 ^ acc_len * w + acc) (acc_len + 15)).1)
      (emitBytes (2 ^ acc_len * w + acc) (acc_len + 15)).2.1
      (emitBytes (2 ^ acc_len * w + acc) (acc_len + 15)).2.2
      hq2 (by rw [ef]; omega) hwsr hbs2
    refine ⟨im, iq, il8, ?_, ?_⟩
    · rw [ileq, List.length_append, el, ef]
      simp only [List.length_cons]
      omega
    · rw [iv, bytesVal_append, List.length_append, el, ef]
      have hpow : (256 : ℕ) ^ ((acc_len + 15) / 8) * 2 ^ ((acc_len + 15) % 8)
          = 32768 * 2 ^ acc_len := by
        rw [show (256 : ℕ) = 2 ^ 8 by norm_num, show (32768 : ℕ) = 2 ^ 15 by norm_num,
          ← pow_mul, ← pow_add, ← pow_add]
        congr 1
        omega
      have hv15 : val15 (w :: ws) = w + 32768 * val15 ws := rfl
      rw [hv15, pow_add]
      zify at ev hpow ⊢
      linear_combination ((256 : ℤ) ^ bytes.length) * ev
        + ((256 : ℤ) ^ bytes.length * (val15 ws : ℤ)) * hpow

/-- `curve9767_scalar_encode` produces 32 bytes whose value is the
canonical representative of the scalar. -/
lemma curve9767_scalar_encode_spec (s : List ℕ) (hs : goodScalar s)
    (hv : val15 s < 2 * n) :
    (curve9767_scalar_encode s).length = 32 ∧
    (∀ z ∈ curve9767_scalar_encode s, z < 256) ∧
    bytesVal (curve9767_scalar_encode s) = val15 s % n := by
  obtain ⟨ng, nv, _, _⟩ := scalar_normalize_spec s hs hv
  obtain ⟨ngl, nglim⟩ := ng
  obtain ⟨fm, fq, f8, fleq, fv⟩ := encode_fold_spec (scalar_normalize s).1 [] 0 0
    (by norm_num) (by omega) nglim (by simp)
  have henc : curve9767_scalar_encode s
      = ((scalar_normalize s).1.foldl encodeStep ([], 0, 0)).1
        ++ [((scalar_normalize s).1.foldl encodeStep ([], 0, 0)).2.1] := rfl
  rw [ngl] at fleq
  simp only [List.length_nil, Nat.mul_zero, Nat.zero_add] at fleq
  have hfl : ((scalar_normalize s).1.foldl encodeStep ([], 0, 0)).1.length = 31 := by
    omega
  have hf2 : ((scalar_normalize s).1.foldl encodeStep ([], 0, 0)).2.2 = 7 := by
    omega
  rw [henc]
  refine ⟨?_, ?_, ?_⟩
  · rw [List.length_append, hfl]
    rfl
  · intro z hz
    rcases List.mem_append.mp hz with hz | hz
    · exact fm z hz
    · have hz7 : z = ((scalar_normalize s).1.foldl encodeStep ([], 0, 0)).2.1 := by
        simpa using hz
      rw [hf2] at fq
      omega
  · rw [bytesVal_append, hfl]
    have hb1 : bytesVal [((scalar_normalize s).1.foldl encodeStep ([], 0, 0)).2.1]
        = ((scalar_normalize s).1.foldl encodeStep ([], 0, 0)).2.1 := by
      show _ + 256 * bytesVal [] = _
      simp [bytesVal]
    rw [hb1]
    have hv2 : bytesVal (((scalar_normalize s).1.foldl encodeStep ([], 0, 0)).1)
        + 256 ^ 31 * ((scalar_normalize s).1.foldl encodeStep ([], 0, 0)).2.1
        = val15 (scalar_normalize s).1 := by
      rw [← hfl]
      rw [fv]
      simp [bytesVal, val15]
    rw [hv2, nv]

/-!  ## Conditional copy -/

lemma zipWith_fst (a : List ℕ) : ∀ d : List ℕ, d.length = a.length →
    List.zipWith (fun w (_ : ℕ) => w) a d = a := by
  induction a with
  | nil => intro d hd; simp
  | cons x xs ih =>
    intro d hd
    match d with
    | y :: ys => simp only [List.zipWith_cons_cons]; rw [ih ys (by simpa using hd)]

lemma zip_ccopy_zero (d s : List ℕ) (hlen : s.length = d.length) :
    List.zipWith (fun dw sw => dw ^^^ ((0 : ℕ) &&& (dw ^^^ sw))) d s = d := by
  have h : (fun (dw sw : ℕ) => dw ^^^ ((0 : ℕ) &&& (dw ^^^ sw)))
      = fun dw _ => dw := by
    funext dw sw
    simp
  rw [h]
  exact zipWith_fst d s hlen

lemma zip_ccopy_one (d : List ℕ) : ∀ s : List ℕ, s.length = d.length →
    (∀ x ∈ d, x < 4294967296) → (∀ x ∈ s, x < 4294967296) →
    List.zipWith (fun dw sw => dw ^^^ (4294967295 &&& (dw ^^^ sw))) d s = s := by
  induction d with
  | nil =>
    intro s hs _ _
    simp [List.eq_nil_of_length_eq_zero hs]
  | cons x xs ih =>
    intro s hs hD hS
    match s with
    | y :: ys =>
      have hx : x < 4294967296 := hD x (by simp)
      have hy : y < 4294967296 := hS y (by simp)
      have hxor : (x ^^^ y) < 2 ^ 32 :=
        Nat.xor_lt_two_pow (by norm_num at hx ⊢; omega) (by norm_num at hy ⊢; omega)
      have hmask : 4294967295 &&& (x ^^^ y) = x ^^^ y := by
        have h1 : (4294967295 : ℕ) = 2 ^ 32 - 1 := by norm_num
        rw [Nat.land_comm, h1, Nat.and_pow_two_sub_one_eq_mod, Nat.mod_eq_of_lt hxor]
      simp only [List.zipWith_cons_cons]
      rw [hmask, ← Nat.xor_assoc, Nat.xor_self, Nat.zero_xor]
      rw [ih ys (by simpa using hs) (fun z hz => hD z (by simp [hz]))
        (fun z hz => hS z (by simp [hz]))]

/-- `curve9767_scalar_condcopy` with control 0 is the identity on the
destination; with control 1 it copies the source bit pattern. -/
lemma condcopy_spec (d s : List ℕ) (hd : d.length = 9) (hs : s.length = 9)
    (hdw : ∀ x ∈ d, x < 4294967296) (hsw : ∀ x ∈ s, x < 4294967296) :
    curve9767_scalar_condcopy d s 0 = d ∧ curve9767_scalar_condcopy d s 1 = s := by
  constructor
  · have hc0 : curve9767_scalar_condcopy d s 0
        = List.zipWith (fun dw sw => dw ^^^ ((0 : ℕ) &&& (dw ^^^ sw))) d s := by
      show List.zipWith
        (fun dw sw => dw ^^^ (((4294967296 - 0 % 4294967296) % 4294967296) &&& (dw ^^^ sw)))
        d s = _
      norm_num
    rw [hc0, zip_ccopy_zero d s (hs.trans hd.symm)]
  · have hc1 : curve9767_scalar_condcopy d s 1
        = List.zipWith (fun dw sw => dw ^^^ ((4294967295 : ℕ) &&& (dw ^^^ sw))) d s := by
      show List.zipWith
        (fun dw sw => dw ^^^ (((4294967296 - 1 % 4294967296) % 4294967296) &&& (dw ^^^ sw)))
        d s = _
      norm_num
    rw [hc1, zip_ccopy_one d s (hs.trans hd.symm) hdw hsw]

/-!  ## Claim theorems -/

/-- C1: for every byte string (any length), `curve9767_scalar_decode_reduce`
produces the little-endian value of the bytes modulo `n`; the accumulator
stays below `1.27 n`, and one loop iteration (Montgomery multiply by `sD`
then add the decoded 31-byte chunk) preserves the `1.27 n` bound. -/
theorem decode_reduce_correct (src : List ℕ) (hb : ∀ b ∈ src, b < 256) :
    val15 (curve9767_scalar_decode_reduce src) % n = bytesVal src % n ∧
    100 * val15 (curve9767_scalar_decode_reduce src) < 127 * n ∧
    ∀ s k, goodScalar s → 100 * val15 s < 127 * n →
      100 * val15 (scalar_add (scalar_mmul s sD)
        (scalar_decode_trunc ((src.drop (31 * k)).take 31))) < 127 * n := by
  obtain ⟨_, hbound, hcong⟩ := decode_reduce_spec src hb
  refine ⟨hcong, hbound, ?_⟩
  intro s k hs hsb
  have hrs : scalar_add (scalar_mmul s sD)
      (scalar_decode_trunc ((src.drop (31 * k)).take 31)) = reduceStep src s k := rfl
  rw [hrs]
  exact (reduceStep_spec src s k hs hsb hb).2.1

/-- C1 witness. -/
theorem decode_reduce_correct_witness :
    (∀ b ∈ [1, 2], b < 256) ∧
    (val15 (curve9767_scalar_decode_reduce [1, 2]) % n = bytesVal [1, 2] % n ∧
     100 * val15 (curve9767_scalar_decode_reduce [1, 2]) < 127 * n ∧
     ∀ s k, goodScalar s → 100 * val15 s < 127 * n →
       100 * val15 (scalar_add (scalar_mmul s sD)
         (scalar_decode_trunc ((List.drop (31 * k) [1, 2]).take 31))) < 127 * n) :=
  ⟨by decide, decode_reduce_correct [1, 2] (by decide)⟩

/-- C2: `curve9767_scalar_decode_strict` accepts (flag 1) exactly the byte
strings whose little-endian value is below `n` with bit 252 and all higher
bits zero; inputs shorter than 32 bytes are always accepted. -/
theorem decode_strict_flag_iff (src : List ℕ) (hb : ∀ b ∈ src, b < 256) :
    ((curve9767_scalar_decode_strict src).2 = 1 ↔
      bytesVal src < n ∧ bytesVal src / 2 ^ 252 = 0) ∧
    (src.length < 32 → (curve9767_scalar_decode_strict src).2 = 1) := by
  obtain ⟨_, hiff, hshort, _⟩ := decode_strict_spec src hb
  have hn1 : n < 2 ^ 252 := n_lt_pow252
  constructor
  · constructor
    · intro h
      have h1 := hiff.mp h
      exact ⟨h1, by omega⟩
    · rintro ⟨h1, _⟩
      exact hiff.mpr h1
  · intro h
    exact (hshort h).1

/-- C2 witness. -/
theorem decode_strict_flag_iff_witness :
    (∀ b ∈ [7], b < 256) ∧
    (((curve9767_scalar_decode_strict [7]).2 = 1 ↔
       bytesVal [7] < n ∧ bytesVal [7] / 2 ^ 252 = 0) ∧
     (List.length [7] < 32 → (curve9767_scalar_decode_strict [7]).2 = 1)) :=
  ⟨by decide, decode_strict_flag_iff [7] (by decide)⟩

/-- C3: round trip — strict decoding of the canonical encoding of any
canonical scalar `v` in `[0, n-1]` recovers exactly `v` with flag 1. -/
theorem decode_strict_encode_roundtrip (s : List ℕ) (hs : goodScalar s)
    (hv : val15 s < n) :
    val15 (curve9767_scalar_decode_strict (curve9767_scalar_encode s)).1 = val15 s ∧
    (curve9767_scalar_decode_strict (curve9767_scalar_encode s)).2 = 1 := by
  have hn1 : n < 2 ^ 252 := n_lt_pow252
  obtain ⟨el, eb, ev⟩ := curve9767_scalar_encode_spec s hs (by omega)
  have hev : bytesVal (curve9767_scalar_encode s) = val15 s := by
    rw [ev, Nat.mod_eq_of_lt hv]
  obtain ⟨_, hiff, _, hout⟩ := decode_strict_spec (curve9767_scalar_encode s) eb
  constructor
  · rw [hout (by omega), hev]
    rw [Nat.mod_eq_of_lt (show val15 s % 2 ^ 252 < n by omega)]
    exact Nat.mod_eq_of_lt (by omega)
  · exact hiff.mpr (by rw [hev]; exact hv)

/-- C3 witness. -/
theorem decode_strict_encode_roundtrip_witness :
    (goodScalar curve9767_scalar_one ∧ val15 curve9767_scalar_one < n) ∧
    (val15 (curve9767_scalar_decode_strict
        (curve9767_scalar_encode curve9767_scalar_one)).1 = val15 curve9767_scalar_one ∧
     (curve9767_scalar_decode_strict
        (curve9767_scalar_encode curve9767_scalar_one)).2 = 1) :=
  ⟨⟨by decide, by decide⟩,
   decode_strict_encode_roundtrip curve9767_scalar_one (by decide) (by decide)⟩

/-- C4: for operands below `1.27 n`, `curve9767_scalar_mul` produces a
scalar congruent to `a * b` modulo `n`, below `1.18 n`; each Montgomery
multiplication `scalar_mmul`, on inputs below `1.27 n`, produces a value
below `1.18 n` congruent to `(a * b) / 2^255` modulo `n`. -/
theorem scalar_mul_correct (a b : List ℕ) (ha : goodScalar a) (hb : goodScalar b)
    (hA : 100 * val15 a < 127 * n) (hB : 100 * val15 b < 127 * n) :
    val15 (curve9767_scalar_mul a b) ≡ val15 a * val15 b [MOD n] ∧
    100 * val15 (curve9767_scalar_mul a b) < 118 * n ∧
    ∀ x y, goodScalar x → goodScalar y →
      100 * val15 x < 127 * n → 100 * val15 y < 127 * n →
      100 * val15 (scalar_mmul x y) < 118 * n ∧
      2 ^ 255 * val15 (scalar_mmul x y) ≡ val15 x * val15 y [MOD n] := by
  obtain ⟨_, hbo, hc⟩ := curve9767_scalar_mul_spec a b ha hb hA hB
  refine ⟨hc, hbo, ?_⟩
  intro x y hx hy hxb hyb
  obtain ⟨_, h1, h2⟩ := scalar_mmul_spec x y hx hy hxb hyb
  exact ⟨h1, h2⟩

/-- C4 witness. -/
theorem scalar_mul_correct_witness :
    (goodScalar curve9767_scalar_one ∧ 100 * val15 curve9767_scalar_one < 127 * n) ∧
    (val15 (curve9767_scalar_mul curve9767_scalar_one curve9767_scalar_one)
       ≡ val15 curve9767_scalar_one * val15 curve9767_scalar_one [MOD n] ∧
     100 * val15 (curve9767_scalar_mul curve9767_scalar_one curve9767_scalar_one)
       < 118 * n ∧
     ∀ x y, goodScalar x → goodScalar y →
       100 * val15 x < 127 * n → 100 * val15 y < 127 * n →
       100 * val15 (scalar_mmul x y) < 118 * n ∧
       2 ^ 255 * val15 (scalar_mmul x y) ≡ val15 x * val15 y [MOD n]) :=
  ⟨⟨by decide, by decide⟩,
   scalar_mul_correct curve9767_scalar_one curve9767_scalar_one
     (by decide) (by decide) (by decide) (by decide)⟩

/-- C5: for inputs below `2 n`, `scalar_normalize` outputs the canonical
representative in `[0, n-1]`, returns 1 exactly when the input was already
canonical, and is idempotent. -/
theorem scalar_normalize_correct (a : List ℕ) (ha : goodScalar a)
    (hA : val15 a < 2 * n) :
    val15 (scalar_normalize a).1 = val15 a % n ∧
    ((scalar_normalize a).2 = 1 ↔ val15 a < n) ∧
    (scalar_normalize ((scalar_normalize a).1)).1 = (scalar_normalize a).1 := by
  have hn2 : 2 ^ 251 < n := pow251_lt_n
  obtain ⟨ng, nv, nf, _⟩ := scalar_normalize_spec a ha hA
  have hcan : val15 (scalar_normalize a).1 < n := by
    rw [nv]
    exact Nat.mod_lt _ (by omega)
  obtain ⟨_, _, _, hid⟩ := scalar_normalize_spec (scalar_normalize a).1 ng (by omega)
  refine ⟨nv, ?_, hid hcan⟩
  rw [nf]
  constructor
  · intro h
    by_contra hc
    rw [if_neg hc] at h
    omega
  · intro h
    rw [if_pos h]

/-- C5 witness. -/
theorem scalar_normalize_correct_witness :
    (goodScalar curve9767_scalar_zero ∧ val15 curve9767_scalar_zero < 2 * n) ∧
    (val15 (scalar_normalize curve9767_scalar_zero).1 = val15 curve9767_scalar_zero % n ∧
     ((scalar_normalize curve9767_scalar_zero).2 = 1 ↔ val15 curve9767_scalar_zero < n) ∧
     (scalar_normalize ((scalar_normalize curve9767_scalar_zero).1)).1
       = (scalar_normalize curve9767_scalar_zero).1) :=
  ⟨⟨by decide, by decide⟩,
   scalar_normalize_correct curve9767_scalar_zero (by decide) (by decide)⟩

set_option maxRecDepth 100000 in
/-- C6 counterexample: the claimed bound `output ≤ a` fails for
`scalar_sub 0 1`, whose output is `n - 1 > 0`. -/
theorem scalar_sub_le_input_fails :
    ¬ (val15 (scalar_sub curve9767_scalar_zero curve9767_scalar_one)
        ≤ val15 curve9767_scalar_zero) := by
  decide

/-- C6 (amended): for operands below `2 n`, `scalar_sub` produces a
nonnegative result congruent to `a - b` modulo `n`; the result is bounded
by `a` whenever `b ≤ a`, and in general by `max a (n - 1)`. -/
theorem scalar_sub_correct (a b : List ℕ) (ha : goodScalar a) (hb : goodScalar b)
    (hA : val15 a < 2 * n) (hB : val15 b < 2 * n) :
    ((val15 (scalar_sub a b) : ℤ) ≡ (val15 a : ℤ) - val15 b [ZMOD (n : ℤ)]) ∧
    val15 (scalar_sub a b) ≤ max (val15 a) (n - 1) := by
  obtain ⟨_, hc, hbnd⟩ := scalar_sub_spec a b ha hb hA hB
  exact ⟨hc, hbnd⟩

/-- C6 witness. -/
theorem scalar_sub_correct_witness :
    ((goodScalar curve9767_scalar_one ∧ goodScalar curve9767_scalar_zero) ∧
      val15 curve9767_scalar_one < 2 * n ∧ val15 curve9767_scalar_zero < 2 * n) ∧
    (((val15 (scalar_sub curve9767_scalar_one curve9767_scalar_zero) : ℤ)
        ≡ (val15 curve9767_scalar_one : ℤ) - val15 curve9767_scalar_zero [ZMOD (n : ℤ)]) ∧
     val15 (scalar_sub curve9767_scalar_one curve9767_scalar_zero)
       ≤ max (val15 curve9767_scalar_one) (n - 1)) :=
  ⟨⟨⟨by decide, by decide⟩, by decide, by decide⟩,
   scalar_sub_correct curve9767_scalar_one curve9767_scalar_zero
     (by decide) (by decide) (by decide) (by decide)⟩

/-- C7: for operands below `1.56 n`, `scalar_add` produces a result below
`2^252`, hence below `1.14 n`, congruent to `a + b` modulo `n`. -/
theorem scalar_add_correct (a b : List ℕ) (ha : goodScalar a) (hb : goodScalar b)
    (hA : 100 * val15 a < 156 * n) (hB : 100 * val15 b < 156 * n) :
    val15 (scalar_add a b) < 2 ^ 252 ∧
    100 * val15 (scalar_add a b) < 114 * n ∧
    val15 (scalar_add a b) ≡ val15 a + val15 b [MOD n] := by
  have hsum : val15 a + val15 b < 2 ^ 252 + 2 * n := by
    have h1 : 112 * n < 100 * 2 ^ 252 := by rw [n_val]; omega
    omega
  obtain ⟨_, hlt, hc⟩ := scalar_add_spec a b ha hb hsum
  refine ⟨hlt, ?_, hc⟩
  have h2 : 100 * 2 ^ 252 < 114 * n := by rw [n_val]; omega
  omega

/-- C7 witness. -/
theorem scalar_add_correct_witness :
    ((goodScalar curve9767_scalar_one ∧ 100 * val15 curve9767_scalar_one < 156 * n)) ∧
    (val15 (scalar_add curve9767_scalar_one curve9767_scalar_one) < 2 ^ 252 ∧
     100 * val15 (scalar_add curve9767_scalar_one curve9767_scalar_one) < 114 * n ∧
     val15 (scalar_add curve9767_scalar_one curve9767_scalar_one)
       ≡ val15 curve9767_scalar_one + val15 curve9767_scalar_one [MOD n]) :=
  ⟨⟨by decide, by decide⟩,
   scalar_add_correct curve9767_scalar_one curve9767_scalar_one
     (by decide) (by decide) (by decide) (by decide)⟩

/-- C8: `curve9767_scalar_condcopy` with control 0 leaves the destination's
representation (all nine 32-bit words, covering the limbs and the padding)
exactly unchanged; with control 1 it makes it bit-for-bit identical to the
source. -/
theorem condcopy_correct (d s : List ℕ) (hd : d.length = 9) (hs : s.length = 9)
    (hdw : ∀ x ∈ d, x < 4294967296) (hsw : ∀ x ∈ s, x < 4294967296) :
    curve9767_scalar_condcopy d s 0 = d ∧ curve9767_scalar_condcopy d s 1 = s :=
  condcopy_spec d s hd hs hdw hsw

/-- C8 witness. -/
theorem condcopy_correct_witness :
    (([1, 2, 3, 4, 5, 6, 7, 8, 9] : List ℕ).length = 9 ∧
     ([11, 12, 13, 14, 15, 16, 17, 18, 19] : List ℕ).length = 9) ∧
    (curve9767_scalar_condcopy [1, 2, 3, 4, 5, 6, 7, 8, 9]
        [11, 12, 13, 14, 15, 16, 17, 18, 19] 0 = [1, 2, 3, 4, 5, 6, 7, 8, 9] ∧
     curve9767_scalar_condcopy [1, 2, 3, 4, 5, 6, 7, 8, 9]
        [11, 12, 13, 14, 15, 16, 17, 18, 19] 1 = [11, 12, 13, 14, 15, 16, 17, 18, 19]) :=
  ⟨⟨by decide, by decide⟩,
   condcopy_correct [1, 2, 3, 4, 5, 6, 7, 8, 9] [11, 12, 13, 14, 15, 16, 17, 18, 19]
     (by decide) (by decide) (by decide) (by decide)⟩

/-- C9: limb-bound invariant — every public operation maps scalars whose
limbs are all below `2^15` to scalars whose limbs are again all below
`2^15` (for `condcopy`, both 16-bit halves of every 32-bit word keep their
top bit clear). -/
theorem limb_bound_invariant (a b src : List ℕ) (ha : goodScalar a)
    (hb : goodScalar b) (hsrc : ∀ x ∈ src, x < 256) :
    (∀ x ∈ scalar_add a b, x < 32768) ∧
    (∀ x ∈ scalar_sub a b, x < 32768) ∧
    (∀ x ∈ curve9767_scalar_neg a, x < 32768) ∧
    (∀ x ∈ curve9767_scalar_mul a b, x < 32768) ∧
    (∀ x ∈ (curve9767_scalar_decode_strict src).1, x < 32768) ∧
    (∀ x ∈ curve9767_scalar_decode_reduce src, x < 32768) ∧
    (∀ ctl d9 s9, d9.length = 9 → s9.length = 9 → ctl = 0 ∨ ctl = 1 →
      (∀ w ∈ d9, w % 65536 < 32768 ∧ w / 65536 < 32768) →
      (∀ w ∈ s9, w % 65536 < 32768 ∧ w / 65536 < 32768) →
      ∀ w ∈ curve9767_scalar_condcopy d9 s9 ctl,
        w % 65536 < 32768 ∧ w / 65536 < 32768) := by
  obtain ⟨ha17, hal⟩ := ha
  obtain ⟨hb17, hbl⟩ := hb
  refine ⟨?_, ?_, ?_, ?_, ?_, ?_, ?_⟩
  · -- scalar_add
    obtain ⟨hcl, hclim, _⟩ := addChain_spec a b 0 (ha17.trans hb17.symm)
    obtain ⟨h1l, h1lim, _⟩ := condsub2252_spec (addChain a b 0).1 (hcl.trans ha17) hclim
    obtain ⟨_, h2lim, _⟩ := condsub2252_spec _ h1l h1lim
    exact h2lim
  · -- scalar_sub
    obtain ⟨hcl, hclim, _, _⟩ := subChain_spec a b 0 (ha17.trans hb17.symm) hal hbl
      (by omega)
    obtain ⟨h1l, h1lim, _⟩ := condadd2254_spec (subChain a b 0).1 (hcl.trans ha17) hclim
    obtain ⟨_, h2lim, _⟩ := condadd2254_spec _ h1l h1lim
    exact h2lim
  · -- neg = sub 0 a
    obtain ⟨hcl, hclim, _, _⟩ := subChain_spec curve9767_scalar_zero a 0
      (by rw [ha17]; decide) (by decide) hal (by omega)
    obtain ⟨h1l, h1lim, _⟩ := condadd2254_spec (subChain curve9767_scalar_zero a 0).1
      (by rw [hcl]; decide) hclim
    obtain ⟨_, h2lim, _⟩ := condadd2254_spec _ h1l h1lim
    exact h2lim
  · -- mul
    obtain ⟨_, htlim, _⟩ := mmulGo_spec sR2 (by decide) a (List.replicate 17 0) 0
      (by decide) (by decide)
    obtain ⟨htl, _⟩ : (mmulGo sR2 a (List.replicate 17 0, 0)).1.length = 17 ∧ True :=
      ⟨(mmulGo_spec sR2 (by decide) a (List.replicate 17 0) 0 (by decide) (by decide)).1,
        trivial⟩
    obtain ⟨_, holim, _⟩ := mmulGo_spec b hb17 (scalar_mmul a sR2)
      (List.replicate 17 0) 0 (by decide) (by decide)
    exact holim
  · exact (decode_strict_spec src hsrc).1.2
  · exact (decode_reduce_spec src hsrc).1.2
  · intro ctl d9 s9 hd9 hs9 hctl hdb hsb
    have hdw : ∀ x ∈ d9, x < 4294967296 := by
      intro x hx
      have := hdb x hx
      omega
    have hsw : ∀ x ∈ s9, x < 4294967296 := by
      intro x hx
      have := hsb x hx
      omega
    obtain ⟨h0, h1⟩ := condcopy_spec d9 s9 hd9 hs9 hdw hsw
    rcases hctl with hc | hc
    · subst hc
      rw [h0]
      exact hdb
    · subst hc
      rw [h1]
      exact hsb

/-- C9 witness. -/
theorem limb_bound_invariant_witness :
    ((goodScalar curve9767_scalar_zero ∧ goodScalar curve9767_scalar_one) ∧
      ∀ x ∈ [(3 : ℕ)], x < 256) ∧
    ((∀ x ∈ scalar_add curve9767_scalar_zero curve9767_scalar_one, x < 32768) ∧
     (∀ x ∈ scalar_sub curve9767_scalar_zero curve9767_scalar_one, x < 32768) ∧
     (∀ x ∈ curve9767_scalar_neg curve9767_scalar_zero, x < 32768) ∧
     (∀ x ∈ curve9767_scalar_mul curve9767_scalar_zero curve9767_scalar_one, x < 32768) ∧
     (∀ x ∈ (curve9767_scalar_decode_strict [3]).1, x < 32768) ∧
     (∀ x ∈ curve9767_scalar_decode_reduce [3], x < 32768) ∧
     (∀ ctl d9 s9, d9.length = 9 → s9.length = 9 → ctl = 0 ∨ ctl = 1 →
       (∀ w ∈ d9, w % 65536 < 32768 ∧ w / 65536 < 32768) →
       (∀ w ∈ s9, w % 65536 < 32768 ∧ w / 65536 < 32768) →
       ∀ w ∈ curve9767_scalar_condcopy d9 s9 ctl,
         w % 65536 < 32768 ∧ w / 65536 < 32768)) :=
  ⟨⟨⟨by decide, by decide⟩, by decide⟩,
   limb_bound_invariant curve9767_scalar_zero curve9767_scalar_one [3]
     (by decide) (by decide) (by decide)⟩

/-- C10: when `curve9767_scalar_decode_strict` is given at least 32 bytes
and rejects (flag 0), the output scalar is still the fully determined
canonical value obtained by normalizing the low 252 bits of the input —
a value in `[0, n-1]`, not arbitrary data. -/
theorem decode_strict_reject_output (src : List ℕ) (hb : ∀ b ∈ src, b < 256)
    (hlen : 32 ≤ src.length) (_hflag : (curve9767_scalar_decode_strict src).2 = 0) :
    val15 (curve9767_scalar_decode_strict src).1 = (bytesVal src % 2 ^ 252) % n ∧
    val15 (curve9767_scalar_decode_strict src).1 < n := by
  obtain ⟨_, _, _, hout⟩ := decode_strict_spec src hb
  have hn : 0 < n := n_pos
  refine ⟨hout hlen, ?_⟩
  rw [hout hlen]
  exact Nat.mod_lt _ (by omega)

set_option maxRecDepth 100000 in
/-- C10 witness. -/
theorem decode_strict_reject_output_witness :
    ((∀ b ∈ List.replicate 32 (255 : ℕ), b < 256) ∧
      32 ≤ (List.replicate 32 (255 : ℕ)).length ∧
      (curve9767_scalar_decode_strict (List.replicate 32 (255 : ℕ))).2 = 0) ∧
    (val15 (curve9767_scalar_decode_strict (List.replicate 32 (255 : ℕ))).1
        = (bytesVal (List.replicate 32 (255 : ℕ)) % 2 ^ 252) % n ∧
     val15 (curve9767_scalar_decode_strict (List.replicate 32 (255 : ℕ))).1 < n) :=
  ⟨⟨by decide, by decide, by decide⟩,
   decode_strict_reject_output (List.replicate 32 255) (by decide) (by decide) (by decide)⟩

end Curve9767
